import Mathlib

/-!
# Verification of the AlgoLab5 friend-recommendation core (`src/graphs.py`)

Shallow embedding of the repository's directed-graph data structure, its
three-color breadth-first search, the depth-limited recommendation traversal,
and the precision/recall evaluator.

Modelling conventions:
* Python `Vertex` objects are equal and hashed by their `name` attribute only,
  so a vertex is represented by its identifier (an arbitrary type `α` with
  decidable equality).  The mutable traversal fields (`pi`, `color`, `d`) of
  all vertices are represented by one total map `VMap α` from identifiers to
  `VSt` records.
* The Python `dict` `_edges` (insertion ordered, keys unique by construction)
  is an association list `List (α × List α)`; a Python adjacency `set` is a
  list with insert-if-absent semantics (`setInsert`).
* `sys.maxsize` is `2 ^ 63 - 1`.
* Python `float` results of `precision`/`recall` are modelled as exact
  rationals; the values the specification speaks about (`0.0`, `1.0`, and
  ratios of small set cardinalities) are exactly representable.
* The `while Q` loops terminate because each vertex is enqueued at most once;
  the embedding runs the loop on explicit fuel `bfsFuel` that provably exceeds
  the number of iterations any run can take, so the definitions stay
  structurally recursive and computable.
-/

namespace AlgoLab

/-- The three traversal colors used by the Python code (strings
`"WHITE"`, `"GRAY"`, `"BLACK"` in the source). -/
inductive Color where
  | WHITE
  | GRAY
  | BLACK
deriving DecidableEq

/-- `sys.maxsize` on a 64-bit CPython build, used as the INFTY sentinel. -/
def sysMaxsize : Nat := 2 ^ 63 - 1

/-- The mutable traversal state of one Python `Vertex`: its `pi`, `color`
and `d` attributes. -/
structure VSt (α : Type) where
  pi : Option α
  color : Color
  d : Nat
deriving DecidableEq

/-- The traversal state of every vertex, keyed by vertex name. -/
def VMap (α : Type) := α → VSt α

/-- A fresh `Vertex(...)` uses the defaults `pi=None, color="WHITE",
`d=sys.maxsize`. -/
def whiteInit {α : Type} : VSt α := ⟨none, Color.WHITE, sysMaxsize⟩

/-- The `DiGraph` class: `_edges` adjacency dict, `num_vertices` and
`num_edges` counters. -/
structure DiGraph (α : Type) where
  edges : List (α × List α)
  num_vertices : Nat
  num_edges : Nat
deriving DecidableEq

variable {α : Type} [DecidableEq α]

/-- First-match association-list lookup, the semantics of a Python dict
access keyed by vertex name. -/
def lookup : List (α × List α) → α → Option (List α)
  | [], _ => none
  | p :: rest, v => if p.1 = v then some p.2 else lookup rest v

/-- Python `set.add`: append the element if it is not already present. -/
def setInsert (l : List α) (v : α) : List α := if v ∈ l then l else l ++ [v]

namespace DiGraph

/-- `DiGraph.__init__`: empty dict, zero counters. -/
def empty : DiGraph α := ⟨[], 0, 0⟩

/-- `vertex_exists`: `vertex in self._edges`. -/
def vertex_exists (g : DiGraph α) (v : α) : Bool := (lookup g.edges v).isSome

/-- The keys of `self._edges`. -/
def keys (g : DiGraph α) : List α := g.edges.map Prod.fst

/-- `G._edges[u]` as used by the traversals: the outgoing adjacency of `u`
(the Python code raises `KeyError` on a missing key; traversal theorems
assume the graph is closed so the default branch is never reached). -/
def adj (g : DiGraph α) (u : α) : List α := (lookup g.edges u).getD []

/-- `get_outgoing_edges`: returns `self._edges[vertex]`. -/
def get_outgoing_edges (g : DiGraph α) (v : α) : List α := g.adj v

/-- `add_vertex`: insert the vertex with an empty outgoing set if absent,
incrementing `num_vertices` on actual insertion. -/
def add_vertex (g : DiGraph α) (v : α) : DiGraph α :=
  if g.vertex_exists v then g
  else ⟨g.edges ++ [(v, [])], g.num_vertices + 1, g.num_edges⟩

/-- `add_edge`: ensure both endpoints exist (via `add_vertex`, whose guard
subsumes the redundant `vertex_exists` checks in the source), insert `v2`
into `v1`'s outgoing set (`get_vertex(v2)` canonicalizes to the stored
vertex of equal name, which in the name-based model is `v2` itself), and
increment `num_edges` unconditionally. -/
def add_edge (g : DiGraph α) (v1 v2 : α) : DiGraph α :=
  let g2 := (g.add_vertex v1).add_vertex v2
  ⟨g2.edges.map (fun p => if p.1 = v1 then (p.1, setInsert p.2 v2) else p),
   g2.num_vertices, g2.num_edges + 1⟩

/-- `count_vertices`: returns `self.num_vertices`. -/
def count_vertices (g : DiGraph α) : Nat := g.num_vertices

/-- `count_edges`: returns `self.num_edges`. -/
def count_edges (g : DiGraph α) : Nat := g.num_edges

/-- `edge_exists`: `False` if `vertex1` is absent, otherwise membership of
`vertex2` in `self._edges[vertex1]`. -/
def edge_exists (g : DiGraph α) (v1 v2 : α) : Bool :=
  match lookup g.edges v1 with
  | none => false
  | some l => decide (v2 ∈ l)

/-- The list of `(source, destination)` pairs read off the adjacency dict. -/
def edgeList (g : DiGraph α) : List (α × α) :=
  g.edges.flatMap (fun p => p.2.map (fun v => (p.1, v)))

/-- `edge_set`: the set of all `(source, destination)` pairs. -/
def edge_set (g : DiGraph α) : Finset (α × α) := g.edgeList.toFinset

end DiGraph

/-- `precision`: `|edgeSet(R) ∩ edgeSet(T)| / |edgeSet(R)|`, and `0.0` when
`R` has no edges.  Python float division is modelled as exact rational
division. -/
def precision (recommendations testing_set : DiGraph α) : ℚ :=
  let rec_edges := recommendations.edge_set
  let test_edges := testing_set.edge_set
  let intersection := rec_edges ∩ test_edges
  if rec_edges.card = 0 then 0
  else (intersection.card : ℚ) / (rec_edges.card : ℚ)

/-- `recall`: `|edgeSet(R) ∩ edgeSet(T)| / |edgeSet(T)|`, and `0.0` when
`T` has no edges.  (`recall` is a reserved Mathlib command name, hence the
prime.) -/
def recall' (recommendations testing_set : DiGraph α) : ℚ :=
  let rec_edges := recommendations.edge_set
  let test_edges := testing_set.edge_set
  let intersection := rec_edges ∩ test_edges
  if test_edges.card = 0 then 0
  else (intersection.card : ℚ) / (test_edges.card : ℚ)

/-- Point update of a vertex-state map (one Python vertex's attributes
being assigned). -/
def setVSt (vst : VMap α) (v : α) (st : VSt α) : VMap α :=
  fun x => if x = v then st else vst x

/-- `u.color = c` leaving `u.d` and `u.pi` alone. -/
def setColor (vst : VMap α) (v : α) (c : Color) : VMap α :=
  fun x => if x = v then { vst x with color := c } else vst x

/-- The reset loop shared by `bfs` and `recommend_friends_for_user`:
`for vertex in G._edges: if not vertex == s: vertex.color = "WHITE";
vertex.pi = None; vertex.d = sys.maxsize`. -/
def resetStates (g : DiGraph α) (vst : VMap α) (s : α) : VMap α :=
  fun x => if x ∈ g.keys ∧ x ≠ s then whiteInit else vst x

/-- Whether a newly discovered vertex at depth `d'` is enqueued: always in
plain `bfs` (`limit = none`), and only when `vertex.d <= max_depth` in
`recommend_friends_for_user` (`limit = some max_depth`). -/
def passCond (limit : Option Int) (d' : Nat) : Bool :=
  match limit with
  | none => true
  | some k => decide ((d' : Int) ≤ k)

/-- The inner `for vertex in G._edges[u]` loop body of both traversals:
each still-WHITE neighbor is marked GRAY with `d = u.d + 1` and `pi = u`;
it is appended to the queue when `passCond` holds, and additionally
collected into `vertices_encountered` in the depth-limited variant.
Returns (updated states, queue appends, collected vertices), each in
iteration order. -/
def scanNeighbors (limit : Option Int) (u : α) :
    List α → VMap α → VMap α × List α × List α
  | [], vst => (vst, [], [])
  | v :: rest, vst =>
    if (vst v).color = Color.WHITE then
      let d' := (vst u).d + 1
      let vst1 := setVSt vst v ⟨some u, Color.GRAY, d'⟩
      let r := scanNeighbors limit u rest vst1
      if passCond limit d' then
        (r.1, v :: r.2.1, match limit with | none => r.2.2 | some _ => v :: r.2.2)
      else (r.1, r.2.1, r.2.2)
    else scanNeighbors limit u rest vst

/-- The `while Q` loop of both traversals, on explicit fuel: dequeue `u`,
scan its neighbors, mark `u` BLACK, continue with the extended queue and
accumulated `vertices_encountered`. -/
def bfsLoop (g : DiGraph α) (limit : Option Int) :
    Nat → List α → VMap α → List α → VMap α × List α
  | 0, _, vst, acc => (vst, acc)
  | _ + 1, [], vst, acc => (vst, acc)
  | fuel + 1, u :: Q, vst, acc =>
    let r := scanNeighbors limit u (g.adj u) vst
    bfsLoop g limit fuel (Q ++ r.2.1) (setColor r.1 u Color.BLACK) (acc ++ r.2.2)

/-- Every vertex name occurring in the adjacency dict (keys and adjacency
entries). -/
def allNames (g : DiGraph α) : List α := g.edges.flatMap (fun p => p.1 :: p.2)

/-- Fuel bound for the traversal loops: each loop iteration dequeues one
vertex and every vertex is enqueued at most once, so `|allNames| + 1`
iterations always suffice. -/
def bfsFuel (g : DiGraph α) : Nat := (allNames g).length + 1

/-- The state both traversals start the loop from: all graph vertices other
than `s` reset to `WHITE`/`None`/`sys.maxsize`, then
`s.color = "GRAY"; s.d = 0; s.pi = None`, and `Q = [s]`. -/
def initStates (g : DiGraph α) (vst : VMap α) (s : α) : VMap α :=
  setVSt (resetStates g vst s) s ⟨none, Color.GRAY, 0⟩

/-- `bfs(G, s)`: plain breadth-first search.  The Python function mutates
the vertices reachable through `G` in place and returns `None`; the
embedding returns the graph object together with the post-call traversal
states.  No statement of the source writes to `_edges`, `num_vertices` or
`num_edges`, so the graph component is passed through unchanged. -/
def bfs (g : DiGraph α) (vst : VMap α) (s : α) : DiGraph α × VMap α :=
  (g, (bfsLoop g none (bfsFuel g) [s] (initStates g vst s) []).1)

/-- `recommend_friends_for_user(G, s, max_depth)`: depth-limited BFS that
returns `vertices_encountered`.  Result: (graph, traversal states,
collected vertices). -/
def recommend_friends_for_user (g : DiGraph α) (vst : VMap α) (s : α)
    (max_depth : Int) : DiGraph α × VMap α × List α :=
  let r := bfsLoop g (some max_depth) (bfsFuel g) [s] (initStates g vst s) []
  (g, r.1, r.2)

/-- The body of the inner `for v in targets` loop of `recommend_all_friends`:
`if not G.edge_exists(v, u): friend_graph.add_edge(u, v);
friend_graph.add_edge(v, u)`. -/
def recPairStep (g : DiGraph α) (u : α) (fg : DiGraph α) (v : α) : DiGraph α :=
  if g.edge_exists v u then fg else (fg.add_edge u v).add_edge v u

/-- The body of the outer `for u in G._edges` loop of
`recommend_all_friends`: run the depth-limited BFS from `u` (mutating the
shared traversal states) and process each returned candidate. -/
def recUserStep (g : DiGraph α) (max_depth : Int)
    (st : VMap α × DiGraph α) (u : α) : VMap α × DiGraph α :=
  let r := recommend_friends_for_user g st.1 u max_depth
  (r.2.1, r.2.2.foldl (recPairStep g u) st.2)

/-- `recommend_all_friends(G, max_depth)`: for every user `u` (dict key
order), run the depth-limited BFS and, for every candidate `v` with no
pre-existing edge `v -> u` in `G`, add `u -> v` and `v -> u` to the
recommendation graph.  The traversal state map threads through the calls
exactly as the shared mutable vertex objects do in Python. -/
def recommend_all_friends (g : DiGraph α) (vst : VMap α) (max_depth : Int) :
    VMap α × DiGraph α :=
  g.keys.foldl (recUserStep g max_depth) (vst, DiGraph.empty)

/-- Directed walks in a graph: `PathLen g s v n` states that there is a
walk of length `n` from `s` to `v` along `adj`-edges. -/
inductive PathLen (g : DiGraph α) (s : α) : α → Nat → Prop where
  | refl : PathLen g s s 0
  | step {u v : α} {n : Nat} :
      PathLen g s u n → v ∈ g.adj u → PathLen g s v (n + 1)

/-- `v` is reachable from `s`. -/
def Reachable (g : DiGraph α) (s v : α) : Prop := ∃ n, PathLen g s v n

/-- `n` is the BFS (shortest-path) distance from `s` to `v`. -/
def IsDist (g : DiGraph α) (s v : α) (n : Nat) : Prop :=
  PathLen g s v n ∧ ∀ m, PathLen g s v m → n ≤ m

/-- The graph invariant maintained by the `DiGraph` API (spec §3): every
vertex appearing in an adjacency set also exists as a key. -/
def Closed (g : DiGraph α) : Prop :=
  ∀ p ∈ g.edges, ∀ v ∈ p.2, v ∈ g.keys

instance (g : DiGraph α) : Decidable (Closed g) := by
  unfold Closed
  infer_instance

end AlgoLab


namespace AlgoLab

variable {α : Type} [DecidableEq α]

/-! ## Association-list and `DiGraph` API lemmas -/

theorem lookup_nil (v : α) : lookup ([] : List (α × List α)) v = none := rfl

theorem lookup_cons (p : α × List α) (rest : List (α × List α)) (v : α) :
    lookup (p :: rest) v = if p.1 = v then some p.2 else lookup rest v := rfl

theorem lookup_append_of_none {l1 l2 : List (α × List α)} {v : α}
    (h : lookup l1 v = none) : lookup (l1 ++ l2) v = lookup l2 v := by
  induction l1 with
  | nil => rfl
  | cons p rest ih =>
    by_cases hp : p.1 = v
    · simp [lookup_cons, hp] at h
    · simp only [lookup_cons, hp, if_neg hp] at h
      simpa [lookup_cons, hp] using ih h

theorem lookup_append_of_some {l1 l2 : List (α × List α)} {v : α} {x : List α}
    (h : lookup l1 v = some x) : lookup (l1 ++ l2) v = some x := by
  induction l1 with
  | nil => simp [lookup_nil] at h
  | cons p rest ih =>
    by_cases hp : p.1 = v
    · simp only [lookup_cons, if_pos hp] at h
      simpa [lookup_cons, hp] using h
    · simp only [lookup_cons, if_neg hp] at h
      simpa [lookup_cons, hp] using ih h

theorem mem_keys_of_lookup {l : List (α × List α)} {v : α} {x : List α}
    (h : lookup l v = some x) : v ∈ l.map Prod.fst := by
  induction l with
  | nil => simp [lookup_nil] at h
  | cons p rest ih =>
    by_cases hp : p.1 = v
    · simp [hp.symm]
    · simp only [lookup_cons, if_neg hp] at h
      simpa using Or.inr (ih h)

theorem lookup_isSome_of_mem_keys {l : List (α × List α)} {v : α}
    (h : v ∈ l.map Prod.fst) : (lookup l v).isSome := by
  induction l with
  | nil => simp at h
  | cons p rest ih =>
    by_cases hp : p.1 = v
    · simp [lookup_cons, hp]
    · simp only [List.map_cons, List.mem_cons] at h
      rcases h with h | h
      · exact absurd h.symm hp
      · simpa [lookup_cons, hp] using ih h

theorem vertex_exists_iff_mem_keys (g : DiGraph α) (v : α) :
    g.vertex_exists v = true ↔ v ∈ g.keys := by
  constructor
  · intro h
    rcases Option.isSome_iff_exists.mp h with ⟨x, hx⟩
    exact mem_keys_of_lookup hx
  · intro h
    exact lookup_isSome_of_mem_keys h

theorem add_vertex_num_edges (g : DiGraph α) (v : α) :
    (g.add_vertex v).num_edges = g.num_edges := by
  unfold DiGraph.add_vertex
  split <;> rfl

theorem add_edge_num_edges (g : DiGraph α) (u v : α) :
    (g.add_edge u v).num_edges = g.num_edges + 1 := by
  show ((g.add_vertex u).add_vertex v).num_edges + 1 = g.num_edges + 1
  rw [add_vertex_num_edges, add_vertex_num_edges]

theorem vertex_exists_add_vertex_self (g : DiGraph α) (v : α) :
    (g.add_vertex v).vertex_exists v = true := by
  unfold DiGraph.add_vertex
  split
  · assumption
  · next h =>
    unfold DiGraph.vertex_exists at h ⊢
    cases hl : lookup g.edges v with
    | some x => rw [hl] at h; simp at h
    | none => simp [lookup_append_of_none hl, lookup_cons]

theorem vertex_exists_add_vertex_mono {g : DiGraph α} {x : α} (y : α)
    (h : g.vertex_exists x = true) : (g.add_vertex y).vertex_exists x = true := by
  unfold DiGraph.add_vertex
  split
  · exact h
  · rcases Option.isSome_iff_exists.mp h with ⟨l, hl⟩
    unfold DiGraph.vertex_exists
    simp [lookup_append_of_some hl]

theorem lookup_map_update {l : List (α × List α)} {u : α} {x : List α}
    (f : List α → List α) (h : lookup l u = some x) :
    lookup (l.map (fun p => if p.1 = u then (p.1, f p.2) else p)) u
      = some (f x) := by
  induction l with
  | nil => simp [lookup_nil] at h
  | cons p rest ih =>
    by_cases hp : p.1 = u
    · simp only [lookup_cons, if_pos hp] at h
      obtain rfl : p.2 = x := Option.some_injective _ h
      simp [lookup_cons, hp]
    · simp only [lookup_cons, if_neg hp] at h
      simp [lookup_cons, hp, ih h]

theorem mem_setInsert (l : List α) (v x : α) :
    x ∈ setInsert l v ↔ x ∈ l ∨ x = v := by
  unfold setInsert
  split
  · next h =>
    constructor
    · exact Or.inl
    · rintro (hx | rfl) <;> [exact hx; exact h]
  · simp

theorem self_mem_setInsert (l : List α) (v : α) : v ∈ setInsert l v :=
  (mem_setInsert l v v).mpr (Or.inr rfl)

theorem edge_exists_add_edge_self (g : DiGraph α) (u v : α) :
    (g.add_edge u v).edge_exists u v = true := by
  have hu : ((g.add_vertex u).add_vertex v).vertex_exists u = true :=
    vertex_exists_add_vertex_mono v (vertex_exists_add_vertex_self g u)
  rcases Option.isSome_iff_exists.mp hu with ⟨l, hl⟩
  show ((g.add_edge u v).edge_exists u v) = true
  unfold DiGraph.add_edge DiGraph.edge_exists
  simp only [lookup_map_update (fun t => setInsert t v) hl]
  simp [self_mem_setInsert]

end AlgoLab

namespace AlgoLab

variable {α : Type} [DecidableEq α]

/-! ## Edge-set lemmas -/

theorem edgeList_add_vertex (g : DiGraph α) (x : α) :
    (g.add_vertex x).edgeList = g.edgeList := by
  unfold DiGraph.add_vertex
  split
  · rfl
  · simp [DiGraph.edgeList]

theorem keys_add_edge_mem (g : DiGraph α) (u v : α) :
    u ∈ ((g.add_vertex u).add_vertex v).keys :=
  (vertex_exists_iff_mem_keys _ u).mp
    (vertex_exists_add_vertex_mono v (vertex_exists_add_vertex_self g u))

theorem pairs_map_update_mem (l : List (α × List α)) (u v a b : α) :
    (a, b) ∈ (l.map (fun p => if p.1 = u then (p.1, setInsert p.2 v) else p)).flatMap
        (fun p => p.2.map (fun w => (p.1, w)))
      ↔ (a, b) ∈ l.flatMap (fun p => p.2.map (fun w => (p.1, w)))
          ∨ (a = u ∧ b = v ∧ u ∈ l.map Prod.fst) := by
  have hmem : ∀ (m : List (α × List α)) (a b : α),
      ((a, b) ∈ m.flatMap (fun p => p.2.map (fun w => (p.1, w)))
        ↔ ∃ p, p ∈ m ∧ p.1 = a ∧ b ∈ p.2) := by
    intro m a b
    simp only [List.mem_flatMap, List.mem_map, Prod.mk.injEq]
    constructor
    · rintro ⟨p, hp, w, hw, h1, h2⟩
      exact ⟨p, hp, h1, h2 ▸ hw⟩
    · rintro ⟨p, hp, h1, h2⟩
      exact ⟨p, hp, b, h2, h1, rfl⟩
  rw [hmem, hmem]
  simp only [List.mem_map]
  constructor
  · rintro ⟨q2, ⟨q, hq, rfl⟩, h1, h2⟩
    by_cases hqu : q.1 = u
    · rw [if_pos hqu] at h1 h2
      simp only at h1 h2
      rcases (mem_setInsert _ _ _).mp h2 with hb | rfl
      · exact Or.inl ⟨q, hq, h1, hb⟩
      · exact Or.inr ⟨h1.symm.trans hqu, rfl, ⟨q, hq, hqu⟩⟩
    · rw [if_neg hqu] at h1 h2
      exact Or.inl ⟨q, hq, h1, h2⟩
  · rintro (⟨p, hp, h1, h2⟩ | ⟨rfl, rfl, hu⟩)
    · by_cases hpu : p.1 = u
      · refine ⟨_, ⟨p, hp, rfl⟩, ?_⟩
        rw [if_pos hpu]
        exact ⟨h1, (mem_setInsert _ _ _).mpr (Or.inl h2)⟩
      · refine ⟨_, ⟨p, hp, rfl⟩, ?_⟩
        rw [if_neg hpu]
        exact ⟨h1, h2⟩
    · rcases hu with ⟨q, hq, hq1⟩
      refine ⟨_, ⟨q, hq, rfl⟩, ?_⟩
      rw [if_pos hq1]
      exact ⟨hq1, (mem_setInsert _ _ _).mpr (Or.inr rfl)⟩

theorem mem_edgeList_add_edge (g : DiGraph α) (u v a b : α) :
    (a, b) ∈ (g.add_edge u v).edgeList
      ↔ (a, b) ∈ g.edgeList ∨ (a = u ∧ b = v) := by
  have hk : u ∈ ((g.add_vertex u).add_vertex v).keys := keys_add_edge_mem g u v
  show (a, b) ∈ (((g.add_vertex u).add_vertex v).edges.map
      (fun p => if p.1 = u then (p.1, setInsert p.2 v) else p)).flatMap
      (fun p => p.2.map (fun w => (p.1, w))) ↔ _
  rw [pairs_map_update_mem]
  have h2 : ((g.add_vertex u).add_vertex v).edges.flatMap
      (fun p => p.2.map (fun w => (p.1, w)))
      = g.edgeList := by
    show ((g.add_vertex u).add_vertex v).edgeList = g.edgeList
    rw [edgeList_add_vertex, edgeList_add_vertex]
  rw [h2]
  unfold DiGraph.keys at hk
  tauto

theorem mem_edge_set_add_edge (g : DiGraph α) (u v a b : α) :
    (a, b) ∈ (g.add_edge u v).edge_set
      ↔ (a, b) ∈ g.edge_set ∨ (a = u ∧ b = v) := by
  simp [DiGraph.edge_set, List.mem_toFinset, mem_edgeList_add_edge]

theorem edge_set_empty : (DiGraph.empty : DiGraph α).edge_set = ∅ := rfl

/-! ## Preservation lemmas for `recommend_all_friends` -/

theorem foldl_recPairStep_pres {g : DiGraph α} {u : α} (P : DiGraph α → Prop)
    (hP : ∀ fg v, P fg → g.edge_exists v u = false →
      P ((fg.add_edge u v).add_edge v u)) :
    ∀ (l : List α) (fg : DiGraph α), P fg → P (l.foldl (recPairStep g u) fg) := by
  intro l
  induction l with
  | nil => intro fg h; exact h
  | cons v rest ih =>
    intro fg h
    simp only [List.foldl_cons]
    apply ih
    unfold recPairStep
    split
    · exact h
    · next hcond =>
      exact hP fg v h (by simpa using hcond)

theorem foldl_recUserStep_pres {g : DiGraph α} {k : Int} (P : DiGraph α → Prop)
    (hP : ∀ u fg v, P fg → g.edge_exists v u = false →
      P ((fg.add_edge u v).add_edge v u)) :
    ∀ (l : List α) (st : VMap α × DiGraph α), P st.2 →
      P (l.foldl (recUserStep g k) st).2 := by
  intro l
  induction l with
  | nil => intro st h; exact h
  | cons u rest ih =>
    intro st h
    simp only [List.foldl_cons]
    apply ih
    exact foldl_recPairStep_pres P (hP u) _ st.2 h

end AlgoLab

namespace AlgoLab

variable {α : Type} [DecidableEq α]

/-! ## The depth guard with a non-positive `max_depth` -/

theorem scan_nonpos {k : Int} (hk : k ≤ 0) (u : α) :
    ∀ (L : List α) (vst : VMap α),
      (scanNeighbors (some k) u L vst).2.1 = []
        ∧ (scanNeighbors (some k) u L vst).2.2 = [] := by
  intro L
  induction L with
  | nil => intro vst; exact ⟨rfl, rfl⟩
  | cons v rest ih =>
    intro vst
    simp only [scanNeighbors]
    split
    · have hpass : passCond (some k) ((vst u).d + 1) = false := by
        simp only [passCond, decide_eq_false_iff_not]
        push_cast
        omega
      rw [hpass]
      simp only [Bool.false_eq_true, if_false]
      exact ih _
    · exact ih _

theorem bfsLoop_nonpos {k : Int} (hk : k ≤ 0) (g : DiGraph α) :
    ∀ (fuel : Nat) (Q : List α) (vst : VMap α) (acc : List α),
      (bfsLoop g (some k) fuel Q vst acc).2 = acc := by
  intro fuel
  induction fuel with
  | zero => intro Q vst acc; rfl
  | succ n ih =>
    intro Q vst acc
    cases Q with
    | nil => rfl
    | cons u Qr =>
      have h := scan_nonpos hk u (g.adj u) vst
      simp only [bfsLoop, h.1, h.2, List.append_nil]
      exact ih _ _ _

/-! ## Witness fixtures (concrete graphs used to instantiate universally
quantified claim theorems) -/

/-- The spec §8 example graph A→B, B→C, C→D encoded as 0→1→2→3. -/
def wG : DiGraph Nat := ((DiGraph.empty.add_edge 0 1).add_edge 1 2).add_edge 2 3

/-- Fresh vertex states: every vertex starts `WHITE`/`None`/`sys.maxsize`. -/
def wVst : VMap Nat := fun _ => whiteInit

/-- One-edge graph A→B, encoded 0→1 (the graph on which the reverse-edge
check of claim C2 fails). -/
def wGc : DiGraph Nat := DiGraph.empty.add_edge 0 1

/-! ## Claim theorems (data-structure and evaluator claims) -/

/-- C9: `recommend_friends_for_user(G, s, max_depth)` returns the empty
list whenever `max_depth ≤ 0`: every discovered neighbor is assigned
`d = u.d + 1 ≥ 1`, and only vertices with `d ≤ max_depth` are collected. -/
theorem recommend_friends_empty_of_nonpos_depth
    (g : DiGraph α) (vst : VMap α) (s : α) (k : Int) (hk : k ≤ 0) :
    (recommend_friends_for_user g vst s k).2.2 = [] :=
  bfsLoop_nonpos hk g _ _ _ _

/-- Witness for C9: on the concrete chain graph with `max_depth = 0` the
returned candidate list is empty. -/
theorem recommend_friends_empty_of_nonpos_depth_witness :
    (0 : Int) ≤ 0 ∧ (recommend_friends_for_user wG wVst 0 0).2.2 = [] :=
  ⟨by decide, recommend_friends_empty_of_nonpos_depth wG wVst 0 0 (by decide)⟩

/-- C10: `bfs` and `recommend_friends_for_user` mutate only the per-vertex
traversal states; the graph component of the program state — its adjacency
mapping (key set and adjacency sets, i.e. all vertex names), `num_vertices`
and `num_edges` — is unchanged.  In the embedding the traversals return the
graph they were handed, mirroring that no statement of either Python
function assigns to `_edges`, `num_vertices` or `num_edges`. -/
theorem traversals_preserve_graph (g : DiGraph α) (vst : VMap α) (s : α) (k : Int) :
    (bfs g vst s).1 = g
      ∧ (recommend_friends_for_user g vst s k).1 = g
      ∧ (bfs g vst s).1.edges = g.edges
      ∧ (bfs g vst s).1.num_vertices = g.num_vertices
      ∧ (bfs g vst s).1.num_edges = g.num_edges
      ∧ (recommend_friends_for_user g vst s k).1.edges = g.edges
      ∧ (recommend_friends_for_user g vst s k).1.num_vertices = g.num_vertices
      ∧ (recommend_friends_for_user g vst s k).1.num_edges = g.num_edges :=
  ⟨rfl, rfl, rfl, rfl, rfl, rfl, rfl, rfl⟩

/-- C6: `add_edge` increments the edge counter unconditionally, so after a
duplicate insertion `count_edges()` strictly exceeds the cardinality of
`edge_set()`. -/
theorem add_edge_increments_unconditionally :
    (∀ (β : Type) [DecidableEq β] (g : DiGraph β) (u v : β),
        (g.add_edge u v).count_edges = g.count_edges + 1)
      ∧ ((DiGraph.empty.add_edge 0 1).add_edge 0 1 : DiGraph Nat).edge_set.card
          < ((DiGraph.empty.add_edge 0 1).add_edge 0 1 : DiGraph Nat).count_edges := by
  constructor
  · intro β _ g u v
    exact add_edge_num_edges g u v
  · decide

/-- C7: `add_vertex` is idempotent: when the vertex is present nothing
changes; when absent, the adjacency dict gains the vertex with an empty
outgoing set, `num_vertices` is incremented, and `num_edges` is untouched. -/
theorem add_vertex_idempotent (g : DiGraph α) (v : α) :
    (g.vertex_exists v = true → g.add_vertex v = g)
      ∧ (g.vertex_exists v = false →
          (g.add_vertex v).num_vertices = g.num_vertices + 1
            ∧ (g.add_vertex v).num_edges = g.num_edges
            ∧ (g.add_vertex v).edges = g.edges ++ [(v, [])]) := by
  constructor
  · intro h
    simp [DiGraph.add_vertex, h]
  · intro h
    simp [DiGraph.add_vertex, h]

/-- Witness for C7: instantiated on the chain graph with a present vertex
(0) and an absent one (5). -/
theorem add_vertex_idempotent_witness :
    (wG.vertex_exists 0 = true ∧ wG.add_vertex 0 = wG)
      ∧ (wG.vertex_exists 5 = false
          ∧ (wG.add_vertex 5).num_vertices = wG.num_vertices + 1
          ∧ (wG.add_vertex 5).num_edges = wG.num_edges
          ∧ (wG.add_vertex 5).edges = wG.edges ++ [(5, [])]) :=
  ⟨⟨by decide, (add_vertex_idempotent wG 0).1 (by decide)⟩,
   ⟨by decide, (add_vertex_idempotent wG 5).2 (by decide)⟩⟩

/-- C8: `add_edge(u, v)` followed by `edge_exists(u, v)` is true. -/
theorem add_edge_then_edge_exists (g : DiGraph α) (u v : α) :
    (g.add_edge u v).edge_exists u v = true :=
  edge_exists_add_edge_self g u v

/-- C5: `precision` is `0.0` on an empty recommendation edge set and the
intersection ratio otherwise; `recall` is `0.0` on an empty ground-truth
edge set and the intersection ratio otherwise; both are exactly `1.0` on
equal non-empty edge sets.  Both are total functions (Python float
division is modelled as exact rational division; the guarded
division-by-zero is the only failure mode of the source expressions). -/
theorem precision_recall_spec (R T : DiGraph α) :
    (R.edge_set.card = 0 → precision R T = 0)
      ∧ (R.edge_set.card ≠ 0 →
          precision R T = ((R.edge_set ∩ T.edge_set).card : ℚ) / (R.edge_set.card : ℚ))
      ∧ (T.edge_set.card = 0 → recall' R T = 0)
      ∧ (T.edge_set.card ≠ 0 →
          recall' R T = ((R.edge_set ∩ T.edge_set).card : ℚ) / (T.edge_set.card : ℚ))
      ∧ (R.edge_set = T.edge_set → R.edge_set.Nonempty →
          precision R T = 1 ∧ recall' R T = 1) := by
  refine ⟨?_, ?_, ?_, ?_, ?_⟩
  · intro h
    simp [precision, h]
  · intro h
    simp [precision, h]
  · intro h
    simp [recall', h]
  · intro h
    simp [recall', h]
  · intro heq hne
    have hc : T.edge_set.card ≠ 0 := by
      rcases heq ▸ hne with ⟨x, hx⟩
      exact Finset.card_ne_zero_of_mem hx
    constructor
    · simp only [precision, heq, Finset.inter_self, if_neg hc]
      exact div_self (by exact_mod_cast hc)
    · simp only [recall', heq, Finset.inter_self, if_neg hc]
      exact div_self (by exact_mod_cast hc)

/-- Witness for C5: the empty-set and equal-nonempty-set cases evaluated on
concrete graphs. -/
theorem precision_recall_spec_witness :
    ((DiGraph.empty : DiGraph Nat).edge_set.card = 0
        ∧ precision (DiGraph.empty : DiGraph Nat) wGc = 0)
      ∧ (wGc.edge_set = wGc.edge_set ∧ wGc.edge_set.Nonempty
        ∧ (precision wGc wGc = 1 ∧ recall' wGc wGc = 1)) :=
  ⟨⟨by decide, (precision_recall_spec DiGraph.empty wGc).1 (by decide)⟩,
   ⟨rfl, ⟨(0, 1), by decide⟩,
    (precision_recall_spec wGc wGc).2.2.2.2 rfl ⟨(0, 1), by decide⟩⟩⟩

/-- C3: the recommendation graph's edge set is symmetric — whenever it
contains `(u, v)` it also contains `(v, u)` (both directions are always
inserted together). -/
theorem recommend_all_symmetric (g : DiGraph α) (vst : VMap α) (k : Int)
    (a b : α) (h : (a, b) ∈ ((recommend_all_friends g vst k).2).edge_set) :
    (b, a) ∈ ((recommend_all_friends g vst k).2).edge_set := by
  refine foldl_recUserStep_pres
    (fun fg => ∀ x y, (x, y) ∈ fg.edge_set → (y, x) ∈ fg.edge_set)
    ?_ g.keys (vst, DiGraph.empty) ?_ a b h
  · intro u fg v hP hcond x y hxy
    rw [mem_edge_set_add_edge] at hxy
    rw [mem_edge_set_add_edge]
    rcases hxy with hxy | ⟨rfl, rfl⟩
    · rw [mem_edge_set_add_edge] at hxy
      rcases hxy with hxy | ⟨rfl, rfl⟩
      · exact Or.inl ((mem_edge_set_add_edge _ _ _ _ _).mpr (Or.inl (hP x y hxy)))
      · exact Or.inr ⟨rfl, rfl⟩
    · exact Or.inl ((mem_edge_set_add_edge _ _ _ _ _).mpr (Or.inr ⟨rfl, rfl⟩))
  · intro x y hxy
    rw [edge_set_empty] at hxy
    exact absurd hxy (Finset.not_mem_empty _)

/-- Witness for C3: on the two-edge chain graph, membership of `(0, 1)` in
the recommendation output yields membership of `(1, 0)`. -/
theorem recommend_all_symmetric_witness :
    (0, 1) ∈ ((recommend_all_friends wGc wVst 1).2).edge_set
      ∧ (1, 0) ∈ ((recommend_all_friends wGc wVst 1).2).edge_set :=
  ⟨by decide, recommend_all_symmetric wGc wVst 1 0 1 (by decide)⟩

/-- C2 fails on the code: on the training graph `{A→B}` (encoded `{0→1}`)
with `max_depth = 1`, the symmetric completion inserts the recommendation
edge `(1, 0)` even though the reverse edge `(0, 1)` is present in the
source graph (the guard `G.edge_exists(v, u)` checks only the candidate
direction). -/
theorem recommend_all_reverse_edge_cex :
    (1, 0) ∈ ((recommend_all_friends wGc wVst 1).2).edge_set
      ∧ wGc.edge_exists 0 1 = true := by
  constructor
  · decide
  · decide

/-- C2 (amended): for every edge `(a, b)` of the recommendation graph, the
source graph lacks `(b, a)` or lacks `(a, b)` itself — the pre-existing-edge
check is applied to the candidate direction only, so `G` never contains
both directions of a recommended pair. -/
theorem recommend_all_no_fresh_reverse (g : DiGraph α) (vst : VMap α) (k : Int)
    (a b : α) (h : (a, b) ∈ ((recommend_all_friends g vst k).2).edge_set) :
    g.edge_exists b a = false ∨ g.edge_exists a b = false := by
  refine foldl_recUserStep_pres
    (fun fg => ∀ x y, (x, y) ∈ fg.edge_set →
      g.edge_exists y x = false ∨ g.edge_exists x y = false)
    ?_ g.keys (vst, DiGraph.empty) ?_ a b h
  · intro u fg v hP hcond x y hxy
    rw [mem_edge_set_add_edge] at hxy
    rcases hxy with hxy | ⟨rfl, rfl⟩
    · rw [mem_edge_set_add_edge] at hxy
      rcases hxy with hxy | ⟨rfl, rfl⟩
      · exact hP x y hxy
      · exact Or.inl hcond
    · exact Or.inr hcond
  · intro x y hxy
    rw [edge_set_empty] at hxy
    exact absurd hxy (Finset.not_mem_empty _)

/-- Witness for C2 (amended): at the counterexample input, the output edge
`(1, 0)` satisfies the amended property through its second disjunct. -/
theorem recommend_all_no_fresh_reverse_witness :
    (1, 0) ∈ ((recommend_all_friends wGc wVst 1).2).edge_set
      ∧ (wGc.edge_exists 0 1 = false ∨ wGc.edge_exists 1 0 = false) :=
  ⟨by decide, recommend_all_no_fresh_reverse wGc wVst 1 1 0 (by decide)⟩

end AlgoLab

namespace AlgoLab

variable {α : Type} [DecidableEq α]

/-! ## Walk and distance lemmas -/

theorem pathLen_zero {g : DiGraph α} {s v : α} (h : PathLen g s v 0) : v = s := by
  cases h
  rfl

theorem pathLen_succ {g : DiGraph α} {s v : α} {n : Nat}
    (h : PathLen g s v (n + 1)) : ∃ u, PathLen g s u n ∧ v ∈ g.adj u := by
  cases h with
  | step hu hv => exact ⟨_, hu, hv⟩

theorem isDist_unique {g : DiGraph α} {s v : α} {n m : Nat}
    (hn : IsDist g s v n) (hm : IsDist g s v m) : n = m :=
  Nat.le_antisymm (hn.2 m hm.1) (hm.2 n hn.1)

theorem isDist_source (g : DiGraph α) (s : α) : IsDist g s s 0 :=
  ⟨PathLen.refl, fun m _ => Nat.zero_le m⟩

theorem lookup_some_mem {l : List (α × List α)} {v : α} {x : List α}
    (h : lookup l v = some x) : ∃ p ∈ l, p.1 = v ∧ p.2 = x := by
  induction l with
  | nil => simp [lookup_nil] at h
  | cons p rest ih =>
    by_cases hp : p.1 = v
    · simp only [lookup_cons, if_pos hp] at h
      exact ⟨p, List.mem_cons_self p rest, hp, Option.some_injective _ h⟩
    · simp only [lookup_cons, if_neg hp] at h
      rcases ih h with ⟨q, hq, h1, h2⟩
      exact ⟨q, List.mem_cons_of_mem p hq, h1, h2⟩

theorem adj_subset_keys {g : DiGraph α} (hC : Closed g) {u v : α}
    (h : v ∈ g.adj u) : v ∈ g.keys := by
  unfold DiGraph.adj at h
  cases hl : lookup g.edges u with
  | none => rw [hl] at h; simp at h
  | some x =>
    rw [hl] at h
    rcases lookup_some_mem hl with ⟨p, hp, _, h2⟩
    exact hC p hp v (h2 ▸ h)

theorem adj_subset_allNames {g : DiGraph α} {u v : α}
    (h : v ∈ g.adj u) : v ∈ allNames g := by
  unfold DiGraph.adj at h
  cases hl : lookup g.edges u with
  | none => rw [hl] at h; simp at h
  | some x =>
    rw [hl] at h
    rcases lookup_some_mem hl with ⟨p, hp, _, h2⟩
    unfold allNames
    exact List.mem_flatMap.mpr ⟨p, hp, List.mem_cons_of_mem p.1 (h2 ▸ h)⟩

theorem pathLen_mem_keys {g : DiGraph α} {s v : α} {n : Nat}
    (hC : Closed g) (hs : s ∈ g.keys) (h : PathLen g s v n) : v ∈ g.keys := by
  induction h with
  | refl => exact hs
  | step _ hv _ => exact adj_subset_keys hC hv

theorem isDist_pred {g : DiGraph α} {s v : α} {n : Nat}
    (h : IsDist g s v (n + 1)) : ∃ u, IsDist g s u n ∧ v ∈ g.adj u := by
  rcases pathLen_succ h.1 with ⟨u, hu, hv⟩
  refine ⟨u, ⟨hu, ?_⟩, hv⟩
  intro m hm
  by_contra hcon
  have hlt : m < n := Nat.lt_of_not_le hcon
  have : ¬ (n + 1 ≤ m + 1) := by omega
  exact this (h.2 (m + 1) (PathLen.step hm hv))

theorem exists_isDist_below {g : DiGraph α} {s : α} :
    ∀ (n : Nat) (v : α), IsDist g s v n → ∀ i, i ≤ n → ∃ w, IsDist g s w i := by
  intro n
  induction n with
  | zero =>
    intro v hv i hi
    obtain rfl : i = 0 := Nat.le_zero.mp hi
    exact ⟨v, hv⟩
  | succ m ih =>
    intro v hv i hi
    rcases Nat.eq_or_lt_of_le hi with rfl | hlt
    · exact ⟨v, hv⟩
    · rcases isDist_pred hv with ⟨u, hu, _⟩
      exact ih u hu i (by omega)

theorem isDist_lt_card {g : DiGraph α} {s v : α} {n : Nat}
    (hC : Closed g) (hs : s ∈ g.keys) (h : IsDist g s v n) :
    n < g.keys.dedup.length := by
  classical
  have hw : ∀ i : Fin (n + 1), ∃ w, IsDist g s w (i : Nat) :=
    fun i => exists_isDist_below n v h i (Nat.lt_succ_iff.mp i.isLt)
  choose f hf using hw
  have hinj : Function.Injective f := by
    intro i j hij
    have : (i : Nat) = (j : Nat) := isDist_unique (hij ▸ hf i) (hf j)
    exact Fin.ext this
  have hmem : ∀ i : Fin (n + 1), f i ∈ g.keys.toFinset := by
    intro i
    rw [List.mem_toFinset]
    exact pathLen_mem_keys hC hs (hf i).1
  have hcard : (n + 1) ≤ g.keys.toFinset.card := by
    have := Finset.card_le_card_of_injOn (s := (Finset.univ : Finset (Fin (n + 1))))
      (t := g.keys.toFinset) f (fun i _ => hmem i)
      (fun i _ j _ hij => hinj hij)
    simpa using this
  rw [List.card_toFinset] at hcard
  omega

/-! ## White-vertex counting -/

/-- The number of still-WHITE vertices among a fixed name list. -/
def whiteCountL (U : List α) (vst : VMap α) : Nat :=
  (U.filter (fun x => decide ((vst x).color = Color.WHITE))).length

theorem whiteCountL_congr {U : List α} {vst1 vst2 : VMap α}
    (h : ∀ x ∈ U, ((vst1 x).color = Color.WHITE ↔ (vst2 x).color = Color.WHITE)) :
    whiteCountL U vst1 = whiteCountL U vst2 := by
  unfold whiteCountL
  rw [List.filter_congr]
  intro x hx
  simpa using h x hx

theorem whiteCountL_set_gray {U : List α} {vst : VMap α} {v : α} {st : VSt α}
    (hU : U.Nodup) (hv : v ∈ U) (hw : (vst v).color = Color.WHITE)
    (hst : st.color ≠ Color.WHITE) :
    whiteCountL U (setVSt vst v st) + 1 = whiteCountL U vst := by
  induction U with
  | nil => simp at hv
  | cons x rest ih =>
    rcases List.mem_cons.mp hv with hvx | hv2
    · subst hvx
      have hrest : (rest.filter (fun y => decide ((setVSt vst v st y).color = Color.WHITE)))
          = rest.filter (fun y => decide ((vst y).color = Color.WHITE)) := by
        apply List.filter_congr
        intro y hy
        have hyv : y ≠ v := fun h => (List.nodup_cons.mp hU).1 (h ▸ hy)
        simp [setVSt, hyv]
      have h1 : (decide ((setVSt vst v st v).color = Color.WHITE)) = false := by
        simp [setVSt, hst]
      have h2 : (decide ((vst v).color = Color.WHITE)) = true := by
        simp [hw]
      unfold whiteCountL
      rw [List.filter_cons, List.filter_cons, hrest, h1, h2]
      simp
    · have hne : x ≠ v := fun hxv => (List.nodup_cons.mp hU).1 (hxv ▸ hv2)
      have hx : setVSt vst v st x = vst x := by
        simp [setVSt, hne]
      unfold whiteCountL
      rw [List.filter_cons, List.filter_cons, hx]
      have ihr := ih (List.nodup_cons.mp hU).2 hv2
      unfold whiteCountL at ihr
      split
      · simp only [List.length_cons]
        omega
      · omega

end AlgoLab

namespace AlgoLab

variable {α : Type} [DecidableEq α]

/-! ## Properties of one neighbor scan -/

theorem scan_cons_white_fst (limit : Option Int) (u v : α) (rest : List α)
    (vst : VMap α) (h : (vst v).color = Color.WHITE) :
    (scanNeighbors limit u (v :: rest) vst).1
      = (scanNeighbors limit u rest
          (setVSt vst v ⟨some u, Color.GRAY, (vst u).d + 1⟩)).1 := by
  simp only [scanNeighbors, h, if_true]
  split <;> rfl

theorem scan_cons_white_enq (limit : Option Int) (u v : α) (rest : List α)
    (vst : VMap α) (h : (vst v).color = Color.WHITE) :
    (scanNeighbors limit u (v :: rest) vst).2.1
      = if passCond limit ((vst u).d + 1)
        then v :: (scanNeighbors limit u rest
          (setVSt vst v ⟨some u, Color.GRAY, (vst u).d + 1⟩)).2.1
        else (scanNeighbors limit u rest
          (setVSt vst v ⟨some u, Color.GRAY, (vst u).d + 1⟩)).2.1 := by
  simp only [scanNeighbors, h, if_true]
  by_cases hp : passCond limit ((vst u).d + 1) = true <;> simp [hp]

theorem scan_cons_nonwhite (limit : Option Int) (u v : α) (rest : List α)
    (vst : VMap α) (h : ¬ (vst v).color = Color.WHITE) :
    scanNeighbors limit u (v :: rest) vst = scanNeighbors limit u rest vst := by
  simp only [scanNeighbors, h, if_false]

theorem scan_acc_none (u : α) :
    ∀ (L : List α) (vst : VMap α), (scanNeighbors none u L vst).2.2 = [] := by
  intro L
  induction L with
  | nil => intro vst; rfl
  | cons v rest ih =>
    intro vst
    by_cases hw : (vst v).color = Color.WHITE
    · simp only [scanNeighbors, hw, if_true, passCond]
      simp [ih]
    · rw [scan_cons_nonwhite none u v rest vst hw]
      exact ih vst

theorem scan_acc_some (k : Int) (u : α) :
    ∀ (L : List α) (vst : VMap α),
      (scanNeighbors (some k) u L vst).2.2 = (scanNeighbors (some k) u L vst).2.1 := by
  intro L
  induction L with
  | nil => intro vst; rfl
  | cons v rest ih =>
    intro vst
    by_cases hw : (vst v).color = Color.WHITE
    · simp only [scanNeighbors, hw, if_true]
      by_cases hp : passCond (some k) ((vst u).d + 1) = true <;> simp [hp, ih]
    · rw [scan_cons_nonwhite (some k) u v rest vst hw]
      exact ih vst

theorem scan_fst_frame (limit : Option Int) (u : α) :
    ∀ (L : List α) (vst : VMap α) (x : α),
      (vst x).color ≠ Color.WHITE → (scanNeighbors limit u L vst).1 x = vst x := by
  intro L
  induction L with
  | nil => intro vst x _; rfl
  | cons v rest ih =>
    intro vst x hx
    by_cases hw : (vst v).color = Color.WHITE
    · rw [scan_cons_white_fst limit u v rest vst hw]
      have hxv : x ≠ v := fun h => hx (h ▸ hw)
      have h1 : setVSt vst v ⟨some u, Color.GRAY, (vst u).d + 1⟩ x = vst x := by
        simp [setVSt, hxv]
      rw [ih _ x (by rw [h1]; exact hx), h1]
    · rw [scan_cons_nonwhite limit u v rest vst hw]
      exact ih vst x hx

theorem scan_fst_cases (limit : Option Int) (u : α) :
    ∀ (L : List α) (vst : VMap α) (x : α),
      (vst u).color ≠ Color.WHITE →
      (scanNeighbors limit u L vst).1 x = vst x
        ∨ ((scanNeighbors limit u L vst).1 x = ⟨some u, Color.GRAY, (vst u).d + 1⟩
            ∧ (vst x).color = Color.WHITE ∧ x ∈ L) := by
  intro L
  induction L with
  | nil => intro vst x _; exact Or.inl rfl
  | cons v rest ih =>
    intro vst x hu
    by_cases hw : (vst v).color = Color.WHITE
    · have huv : u ≠ v := fun h => hu (h ▸ hw)
      have hu1 : setVSt vst v ⟨some u, Color.GRAY, (vst u).d + 1⟩ u = vst u := by
        simp [setVSt, huv]
      rw [scan_cons_white_fst limit u v rest vst hw]
      by_cases hxv : x = v
      · subst hxv
        have hx1 : (setVSt vst x ⟨some u, Color.GRAY, (vst u).d + 1⟩ x)
            = ⟨some u, Color.GRAY, (vst u).d + 1⟩ := by
          simp [setVSt]
        refine Or.inr ⟨?_, hw, List.mem_cons_self x rest⟩
        rw [scan_fst_frame limit u rest _ x (by rw [hx1]; simp), hx1]
      · have h1 : setVSt vst v ⟨some u, Color.GRAY, (vst u).d + 1⟩ x = vst x := by
          simp [setVSt, hxv]
        rcases ih (setVSt vst v ⟨some u, Color.GRAY, (vst u).d + 1⟩) x
            (by rw [hu1]; exact hu) with hc | ⟨hc, hc2, hc3⟩
        · rw [hc, h1]
          exact Or.inl rfl
        · rw [hu1] at hc
          rw [h1] at hc2
          exact Or.inr ⟨hc, hc2, List.mem_cons_of_mem v hc3⟩
    · rw [scan_cons_nonwhite limit u v rest vst hw]
      rcases ih vst x hu with hc | ⟨hc, hc2, hc3⟩
      · exact Or.inl hc
      · exact Or.inr ⟨hc, hc2, List.mem_cons_of_mem v hc3⟩

theorem scan_marks (limit : Option Int) (u : α) :
    ∀ (L : List α) (vst : VMap α) (x : α),
      (vst u).color ≠ Color.WHITE → x ∈ L → (vst x).color = Color.WHITE →
      (scanNeighbors limit u L vst).1 x = ⟨some u, Color.GRAY, (vst u).d + 1⟩ := by
  intro L
  induction L with
  | nil => intro vst x _ hx _; simp at hx
  | cons v rest ih =>
    intro vst x hu hxL hx
    by_cases hw : (vst v).color = Color.WHITE
    · have huv : u ≠ v := fun h => hu (h ▸ hw)
      have hu1 : setVSt vst v ⟨some u, Color.GRAY, (vst u).d + 1⟩ u = vst u := by
        simp [setVSt, huv]
      rw [scan_cons_white_fst limit u v rest vst hw]
      by_cases hxv : x = v
      · subst hxv
        have hx1 : (setVSt vst x ⟨some u, Color.GRAY, (vst u).d + 1⟩ x)
            = ⟨some u, Color.GRAY, (vst u).d + 1⟩ := by
          simp [setVSt]
        rw [scan_fst_frame limit u rest _ x (by rw [hx1]; simp), hx1]
      · have h1 : setVSt vst v ⟨some u, Color.GRAY, (vst u).d + 1⟩ x = vst x := by
          simp [setVSt, hxv]
        have hxrest : x ∈ rest := by
          rcases List.mem_cons.mp hxL with h | h
          · exact absurd h hxv
          · exact h
        have := ih (setVSt vst v ⟨some u, Color.GRAY, (vst u).d + 1⟩) x
          (by rw [hu1]; exact hu) hxrest (by rw [h1]; exact hx)
        rw [hu1] at this
        exact this
    · have hxv : x ≠ v := fun h => hw (h ▸ hx)
      rw [scan_cons_nonwhite limit u v rest vst hw]
      have hxrest : x ∈ rest := by
        rcases List.mem_cons.mp hxL with h | h
        · exact absurd h hxv
        · exact h
      exact ih vst x hu hxrest hx

theorem scan_enq_sub (limit : Option Int) (u : α) :
    ∀ (L : List α) (vst : VMap α) (x : α),
      x ∈ (scanNeighbors limit u L vst).2.1 →
      (vst x).color = Color.WHITE ∧ x ∈ L := by
  intro L
  induction L with
  | nil => intro vst x hx; simp [scanNeighbors] at hx
  | cons v rest ih =>
    intro vst x hx
    by_cases hw : (vst v).color = Color.WHITE
    · rw [scan_cons_white_enq limit u v rest vst hw] at hx
      have hmem : x = v ∨ x ∈ (scanNeighbors limit u rest
          (setVSt vst v ⟨some u, Color.GRAY, (vst u).d + 1⟩)).2.1 := by
        by_cases hp : passCond limit ((vst u).d + 1) = true
        · rw [if_pos hp] at hx
          exact List.mem_cons.mp hx
        · rw [if_neg hp] at hx
          exact Or.inr hx
      rcases hmem with rfl | hmem
      · exact ⟨hw, List.mem_cons_self x rest⟩
      · rcases ih _ x hmem with ⟨h1, h2⟩
        by_cases hxv : x = v
        · subst hxv
          simp [setVSt] at h1
        · have : setVSt vst v ⟨some u, Color.GRAY, (vst u).d + 1⟩ x = vst x := by
            simp [setVSt, hxv]
          rw [this] at h1
          exact ⟨h1, List.mem_cons_of_mem v h2⟩
    · rw [scan_cons_nonwhite limit u v rest vst hw] at hx
      rcases ih vst x hx with ⟨h1, h2⟩
      exact ⟨h1, List.mem_cons_of_mem v h2⟩

theorem scan_enq_nodup (limit : Option Int) (u : α) :
    ∀ (L : List α) (vst : VMap α), (scanNeighbors limit u L vst).2.1.Nodup := by
  intro L
  induction L with
  | nil => intro vst; simp [scanNeighbors]
  | cons v rest ih =>
    intro vst
    by_cases hw : (vst v).color = Color.WHITE
    · rw [scan_cons_white_enq limit u v rest vst hw]
      by_cases hp : passCond limit ((vst u).d + 1) = true
      · rw [if_pos hp]
        refine List.nodup_cons.mpr ⟨?_, ih _⟩
        intro hv
        have := (scan_enq_sub limit u rest _ v hv).1
        simp [setVSt] at this
      · rw [if_neg hp]
        exact ih _
    · rw [scan_cons_nonwhite limit u v rest vst hw]
      exact ih vst

theorem scan_enq_complete (limit : Option Int) (u : α) :
    ∀ (L : List α) (vst : VMap α) (x : α),
      (vst u).color ≠ Color.WHITE →
      passCond limit ((vst u).d + 1) = true → x ∈ L →
      (vst x).color = Color.WHITE →
      x ∈ (scanNeighbors limit u L vst).2.1 := by
  intro L
  induction L with
  | nil => intro vst x _ _ hx _; simp at hx
  | cons v rest ih =>
    intro vst x hu hp hxL hx
    by_cases hw : (vst v).color = Color.WHITE
    · have huv : u ≠ v := fun h => hu (h ▸ hw)
      have hu1 : setVSt vst v ⟨some u, Color.GRAY, (vst u).d + 1⟩ u = vst u := by
        simp [setVSt, huv]
      rw [scan_cons_white_enq limit u v rest vst hw, if_pos hp]
      by_cases hxv : x = v
      · exact hxv ▸ List.mem_cons_self v _
      · have h1 : setVSt vst v ⟨some u, Color.GRAY, (vst u).d + 1⟩ x = vst x := by
          simp [setVSt, hxv]
        have hxrest : x ∈ rest := by
          rcases List.mem_cons.mp hxL with h | h
          · exact absurd h hxv
          · exact h
        refine List.mem_cons_of_mem v ?_
        exact ih _ x (by rw [hu1]; exact hu) (by rw [hu1]; exact hp) hxrest
          (by rw [h1]; exact hx)
    · have hxv : x ≠ v := fun h => hw (h ▸ hx)
      rw [scan_cons_nonwhite limit u v rest vst hw]
      have hxrest : x ∈ rest := by
        rcases List.mem_cons.mp hxL with h | h
        · exact absurd h hxv
        · exact h
      exact ih vst x hu hp hxrest hx

theorem scan_enq_empty (limit : Option Int) (u : α) :
    ∀ (L : List α) (vst : VMap α),
      (vst u).color ≠ Color.WHITE →
      passCond limit ((vst u).d + 1) = false →
      (scanNeighbors limit u L vst).2.1 = [] := by
  intro L
  induction L with
  | nil => intro vst _ _; rfl
  | cons v rest ih =>
    intro vst hu hp
    by_cases hw : (vst v).color = Color.WHITE
    · have huv : u ≠ v := fun h => hu (h ▸ hw)
      have hu1 : setVSt vst v ⟨some u, Color.GRAY, (vst u).d + 1⟩ u = vst u := by
        simp [setVSt, huv]
      rw [scan_cons_white_enq limit u v rest vst hw,
        if_neg (by rw [hp]; simp)]
      exact ih _ (by rw [hu1]; exact hu) (by rw [hu1]; exact hp)
    · rw [scan_cons_nonwhite limit u v rest vst hw]
      exact ih vst hu hp

theorem scan_whiteCount (limit : Option Int) (u : α) {U : List α} (hU : U.Nodup) :
    ∀ (L : List α) (vst : VMap α),
      (∀ v ∈ L, v ∈ U) →
      whiteCountL U (scanNeighbors limit u L vst).1
          + (scanNeighbors limit u L vst).2.1.length
        ≤ whiteCountL U vst := by
  intro L
  induction L with
  | nil => intro vst _; simp [scanNeighbors]
  | cons v rest ih =>
    intro vst hL
    by_cases hw : (vst v).color = Color.WHITE
    · have hset := @whiteCountL_set_gray _ _ _ _ _
        (⟨some u, Color.GRAY, (vst u).d + 1⟩ : VSt α)
        hU (hL v (List.mem_cons_self v rest)) hw (by simp)
      have hrec := ih (setVSt vst v ⟨some u, Color.GRAY, (vst u).d + 1⟩)
        (fun w hwr => hL w (List.mem_cons_of_mem v hwr))
      rw [scan_cons_white_fst limit u v rest vst hw,
        scan_cons_white_enq limit u v rest vst hw]
      by_cases hp : passCond limit ((vst u).d + 1) = true
      · rw [if_pos hp]
        simp only [List.length_cons]
        omega
      · rw [if_neg hp]
        omega
    · rw [scan_cons_nonwhite limit u v rest vst hw]
      exact ih vst (fun w hwr => hL w (List.mem_cons_of_mem v hwr))

end AlgoLab

namespace AlgoLab

variable {α : Type} [DecidableEq α]

/-! ## The BFS loop invariant

The queue always consists of two blocks: a first block of vertices at
distance `dlo` followed by a second block at distance `dlo + 1` (CLRS-style
monotone queue).  All discovered vertices carry their true shortest-path
distance, every BLACK vertex is fully expanded, every GRAY vertex is in the
queue or was cut by the depth bound, and every walk of length at most `dlo`
ends in a discovered vertex. -/

structure BfsInv (g : DiGraph α) (s : α) (limit : Option Int)
    (Q1 Q2 : List α) (dlo : Nat) (vst : VMap α) (acc : List α) : Prop where
  qkeys : ∀ v ∈ Q1 ++ Q2, v ∈ g.keys
  qgray : ∀ v ∈ Q1 ++ Q2, (vst v).color = Color.GRAY
  qnodup : (Q1 ++ Q2).Nodup
  q1d : ∀ v ∈ Q1, (vst v).d = dlo
  q2d : ∀ v ∈ Q2, (vst v).d = dlo + 1
  qpass : ∀ k, limit = some k → ∀ v ∈ Q1 ++ Q2,
    ((vst v).d : Int) ≤ k ∨ (vst v).d = 0
  distC : ∀ v ∈ g.keys, (vst v).color ≠ Color.WHITE → IsDist g s v ((vst v).d)
  blackExp : ∀ x ∈ g.keys, (vst x).color = Color.BLACK →
    ∀ v ∈ g.adj x, (vst v).color ≠ Color.WHITE
  grayInQ : ∀ v ∈ g.keys, (vst v).color = Color.GRAY →
    v ∈ Q1 ++ Q2 ∨ ∃ k, limit = some k ∧ (k : Int) < ((vst v).d : Int)
  whiteD : ∀ v ∈ g.keys, (vst v).color = Color.WHITE → vst v = whiteInit
  covered : ∀ n, n ≤ dlo → ∀ v, PathLen g s v n → (vst v).color ≠ Color.WHITE
  sNW : (vst s).color ≠ Color.WHITE
  accNodup : acc.Nodup
  accKeys : ∀ v ∈ acc, v ∈ g.keys
  accMem : ∀ v ∈ g.keys, (v ∈ acc ↔ ((vst v).color ≠ Color.WHITE ∧ v ≠ s ∧
    ∃ k, limit = some k ∧ ((vst v).d : Int) ≤ k))
  accD : ∀ v ∈ acc, (vst v).d ≤ dlo + 1
  accSorted : (acc.map (fun v => (vst v).d)).Sorted (· ≤ ·)

theorem initStates_source (g : DiGraph α) (vst : VMap α) (s : α) :
    initStates g vst s s = ⟨none, Color.GRAY, 0⟩ := by
  simp [initStates, setVSt]

theorem initStates_other (g : DiGraph α) (vst : VMap α) (s : α) {x : α}
    (hx : x ∈ g.keys) (hxs : x ≠ s) : initStates g vst s x = whiteInit := by
  simp [initStates, setVSt, resetStates, hx, hxs]

theorem bfsInv_init (g : DiGraph α) (s : α) (limit : Option Int)
    (hC : Closed g) (hs : s ∈ g.keys) (vst : VMap α) :
    BfsInv g s limit [s] [] 0 (initStates g vst s) [] := by
  have hsv := initStates_source g vst s
  have hov := fun {x} hx hxs => initStates_other g vst s (x := x) hx hxs
  refine ⟨?_, ?_, ?_, ?_, ?_, ?_, ?_, ?_, ?_, ?_, ?_, ?_, ?_, ?_, ?_, ?_, ?_⟩
  · intro v hv
    simp only [List.append_nil, List.mem_singleton] at hv
    exact hv ▸ hs
  · intro v hv
    simp only [List.append_nil, List.mem_singleton] at hv
    subst hv
    rw [hsv]
  · simp
  · intro v hv
    simp only [List.mem_singleton] at hv
    subst hv
    rw [hsv]
  · intro v hv
    simp at hv
  · intro k _ v hv
    simp only [List.append_nil, List.mem_singleton] at hv
    subst hv
    rw [hsv]
    right
    rfl
  · intro v hv hnw
    by_cases hvs : v = s
    · subst hvs
      rw [hsv]
      exact isDist_source g v
    · rw [hov hv hvs] at hnw
      simp [whiteInit] at hnw
  · intro x hx hb v hv
    by_cases hxs : x = s
    · subst hxs
      rw [hsv] at hb
      simp at hb
    · rw [hov hx hxs] at hb
      simp [whiteInit] at hb
  · intro v hv hg
    by_cases hvs : v = s
    · subst hvs
      left
      simp
    · rw [hov hv hvs] at hg
      simp [whiteInit] at hg
  · intro v hv hw
    by_cases hvs : v = s
    · subst hvs
      rw [hsv] at hw
      simp at hw
    · exact hov hv hvs
  · intro n hn v hp
    obtain rfl : n = 0 := Nat.le_zero.mp hn
    obtain rfl : v = s := pathLen_zero hp
    rw [hsv]
    simp
  · rw [hsv]
    simp
  · exact List.nodup_nil
  · intro v hv
    simp at hv
  · intro v hv
    simp only [List.not_mem_nil, false_iff]
    intro ⟨hnw, hvs, _⟩
    by_cases hvs2 : v = s
    · exact hvs hvs2
    · rw [hov hv hvs2] at hnw
      simp [whiteInit] at hnw
  · intro v hv
    simp at hv
  · simp

theorem bfsInv_shift (g : DiGraph α) (s : α) (limit : Option Int)
    {Q2 : List α} {dlo : Nat} {vst : VMap α} {acc : List α}
    (hC : Closed g) (hs : s ∈ g.keys)
    (inv : BfsInv g s limit [] Q2 dlo vst acc) (hne : Q2 ≠ []) :
    BfsInv g s limit Q2 [] (dlo + 1) vst acc := by
  refine ⟨?_, ?_, ?_, ?_, ?_, ?_, inv.distC, inv.blackExp, ?_, inv.whiteD,
    ?_, inv.sNW, inv.accNodup, inv.accKeys, inv.accMem, ?_, inv.accSorted⟩
  · intro v hv
    exact inv.qkeys v (by simpa using (by simpa using hv : v ∈ Q2))
  · intro v hv
    exact inv.qgray v (by simpa using (by simpa using hv : v ∈ Q2))
  · simpa using inv.qnodup
  · intro v hv
    exact inv.q2d v hv
  · intro v hv
    simp at hv
  · intro k hk v hv
    exact inv.qpass k hk v (by simpa using (by simpa using hv : v ∈ Q2))
  · intro v hv hg
    rcases inv.grayInQ v hv hg with hmem | hcut
    · left
      simpa using (by simpa using hmem : v ∈ Q2)
    · right
      exact hcut
  · intro n hn v hp
    rcases Nat.eq_or_lt_of_le hn with hn1 | hn2
    · subst hn1
      rcases pathLen_succ hp with ⟨p, hp', hedge⟩
      have hpnw : (vst p).color ≠ Color.WHITE := inv.covered dlo le_rfl p hp'
      have hpk : p ∈ g.keys := pathLen_mem_keys hC hs hp'
      have hdp : IsDist g s p ((vst p).d) := inv.distC p hpk hpnw
      have hdple : (vst p).d ≤ dlo := hdp.2 dlo hp'
      cases hcol : (vst p).color with
      | WHITE => exact absurd hcol hpnw
      | BLACK => exact inv.blackExp p hpk hcol v hedge
      | GRAY =>
        rcases inv.grayInQ p hpk hcol with hmem | ⟨k, hk, hlt⟩
        · have := inv.q2d p (by simpa using hmem)
          omega
        · obtain ⟨u2, hu2⟩ := List.exists_mem_of_ne_nil Q2 hne
          have hud : (vst u2).d = dlo + 1 := inv.q2d u2 hu2
          rcases inv.qpass k hk u2 (by simpa using hu2) with hle | h0
          · rw [hud] at hle
            push_cast at hle hlt
            omega
          · omega
    · exact inv.covered n (by omega) v hp
  · intro v hv
    have := inv.accD v hv
    omega

end AlgoLab

namespace AlgoLab

variable {α : Type} [DecidableEq α]

theorem pairwise_of_all {β : Type} {r : β → β → Prop} :
    ∀ {l : List β}, (∀ a ∈ l, ∀ b ∈ l, r a b) → l.Pairwise r := by
  intro l
  induction l with
  | nil => intro _; exact List.Pairwise.nil
  | cons x rest ih =>
    intro h
    refine List.Pairwise.cons ?_ (ih ?_)
    · intro b hb
      exact h x (List.mem_cons_self x rest) b (List.mem_cons_of_mem x hb)
    · intro a ha b hb
      exact h a (List.mem_cons_of_mem x ha) b (List.mem_cons_of_mem x hb)

/-- One iteration of the `while Q` loop preserves the invariant: dequeue the
front vertex `u` (at depth `dlo`), scan its neighbors, blacken `u`. -/
theorem bfsInv_step (g : DiGraph α) (s : α) (limit : Option Int)
    {u : α} {Q1r Q2 : List α} {dlo : Nat} {vst : VMap α} {acc : List α}
    (hC : Closed g) (hs : s ∈ g.keys)
    (inv : BfsInv g s limit (u :: Q1r) Q2 dlo vst acc) :
    BfsInv g s limit Q1r (Q2 ++ (scanNeighbors limit u (g.adj u) vst).2.1) dlo
      (setColor (scanNeighbors limit u (g.adj u) vst).1 u Color.BLACK)
      (acc ++ (scanNeighbors limit u (g.adj u) vst).2.2) := by
  have hmemu : u ∈ (u :: Q1r) ++ Q2 := by
    rw [List.cons_append]
    exact List.mem_cons_self u (Q1r ++ Q2)
  have hQold : ∀ v, v ∈ Q1r ++ Q2 → v ∈ (u :: Q1r) ++ Q2 := by
    intro v hv
    rw [List.cons_append]
    exact List.mem_cons_of_mem u hv
  have hukeys : u ∈ g.keys := inv.qkeys u hmemu
  have hugray : (vst u).color = Color.GRAY := inv.qgray u hmemu
  have hu : (vst u).color ≠ Color.WHITE := by rw [hugray]; simp
  have hud : (vst u).d = dlo := inv.q1d u (List.mem_cons_self u Q1r)
  have hnodup2 : u ∉ Q1r ++ Q2 ∧ (Q1r ++ Q2).Nodup := by
    have := inv.qnodup
    rw [List.cons_append] at this
    exact List.nodup_cons.mp this
  have hBu : setColor (scanNeighbors limit u (g.adj u) vst).1 u Color.BLACK u
      = { vst u with color := Color.BLACK } := by
    simp [setColor, scan_fst_frame limit u (g.adj u) vst u hu]
  have hBx : ∀ x, x ≠ u →
      setColor (scanNeighbors limit u (g.adj u) vst).1 u Color.BLACK x
        = (scanNeighbors limit u (g.adj u) vst).1 x := by
    intro x hx
    rw [setColor]
    simp [hx]
  have hcase : ∀ x, x ≠ u →
      (setColor (scanNeighbors limit u (g.adj u) vst).1 u Color.BLACK x = vst x
        ∨ (setColor (scanNeighbors limit u (g.adj u) vst).1 u Color.BLACK x
              = ⟨some u, Color.GRAY, dlo + 1⟩
            ∧ (vst x).color = Color.WHITE ∧ x ∈ g.adj u)) := by
    intro x hx
    rw [hBx x hx]
    have := scan_fst_cases limit u (g.adj u) vst x hu
    rw [hud] at this
    exact this
  have hkeep : ∀ x, x ≠ u → (vst x).color ≠ Color.WHITE →
      setColor (scanNeighbors limit u (g.adj u) vst).1 u Color.BLACK x = vst x := by
    intro x hx hnw
    rcases hcase x hx with h | ⟨_, hw, _⟩
    · exact h
    · exact absurd hw hnw
  have hmono : ∀ x, (vst x).color ≠ Color.WHITE →
      (setColor (scanNeighbors limit u (g.adj u) vst).1 u Color.BLACK x).color
        ≠ Color.WHITE := by
    intro x hx
    by_cases hxu : x = u
    · subst hxu
      rw [hBu]
      simp
    · rcases hcase x hxu with h | ⟨h, hw, _⟩
      · rw [h]; exact hx
      · exact absurd hw hx
  have hnewW : ∀ x ∈ (scanNeighbors limit u (g.adj u) vst).2.1,
      (vst x).color = Color.WHITE ∧ x ∈ g.adj u :=
    fun x hx => scan_enq_sub limit u (g.adj u) vst x hx
  have hnew : ∀ x ∈ (scanNeighbors limit u (g.adj u) vst).2.1,
      setColor (scanNeighbors limit u (g.adj u) vst).1 u Color.BLACK x
        = ⟨some u, Color.GRAY, dlo + 1⟩ := by
    intro x hx
    rcases hnewW x hx with ⟨hw, hL⟩
    have hxu : x ≠ u := fun h => hu (h ▸ hw)
    rw [hBx x hxu]
    have := scan_marks limit u (g.adj u) vst x hu hL hw
    rw [hud] at this
    exact this
  have hwhiteB : ∀ x,
      (setColor (scanNeighbors limit u (g.adj u) vst).1 u Color.BLACK x).color
          = Color.WHITE →
      setColor (scanNeighbors limit u (g.adj u) vst).1 u Color.BLACK x = vst x
        ∧ (vst x).color = Color.WHITE := by
    intro x hx
    by_cases hxu : x = u
    · subst hxu
      rw [hBu] at hx
      simp at hx
    · rcases hcase x hxu with h | ⟨h, _, _⟩
      · exact ⟨h, h ▸ hx⟩
      · rw [h] at hx
        simp at hx
  have hnotinQ : ∀ x ∈ (scanNeighbors limit u (g.adj u) vst).2.1,
      x ∉ (u :: Q1r) ++ Q2 := by
    intro x hx hmem
    have := inv.qgray x hmem
    rw [(hnewW x hx).1] at this
    simp at this
  have hdist_u : IsDist g s u dlo := by
    have := inv.distC u hukeys hu
    rw [hud] at this
    exact this
  have hnewDist : ∀ x ∈ (scanNeighbors limit u (g.adj u) vst).2.1 ∪ [],
      True := fun _ _ => trivial
  refine ⟨?_, ?_, ?_, ?_, ?_, ?_, ?_, ?_, ?_, ?_, ?_, ?_, ?_, ?_, ?_, ?_, ?_⟩
  · -- qkeys
    intro v hv
    rcases List.mem_append.mp hv with h | h
    · exact inv.qkeys v (hQold v (List.mem_append.mpr (Or.inl h)))
    · rcases List.mem_append.mp h with h2 | h2
      · exact inv.qkeys v (hQold v (List.mem_append.mpr (Or.inr h2)))
      · exact adj_subset_keys hC (hnewW v h2).2
  · -- qgray
    intro v hv
    have hsplit : v ∈ Q1r ++ Q2 ∨ v ∈ (scanNeighbors limit u (g.adj u) vst).2.1 := by
      rcases List.mem_append.mp hv with h | h
      · exact Or.inl (List.mem_append.mpr (Or.inl h))
      · rcases List.mem_append.mp h with h2 | h2
        · exact Or.inl (List.mem_append.mpr (Or.inr h2))
        · exact Or.inr h2
    rcases hsplit with h | h
    · have hvu : v ≠ u := fun hh => hnodup2.1 (hh ▸ h)
      rw [hkeep v hvu (by rw [inv.qgray v (hQold v h)]; simp)]
      exact inv.qgray v (hQold v h)
    · rw [hnew v h]
  · -- qnodup
    rw [← List.append_assoc]
    refine List.Nodup.append hnodup2.2 (scan_enq_nodup limit u (g.adj u) vst) ?_
    intro x hx1 hx2
    have := inv.qgray x (hQold x hx1)
    rw [(hnewW x hx2).1] at this
    simp at this
  · -- q1d
    intro v hv
    have hvu : v ≠ u := by
      intro hh
      subst hh
      exact hnodup2.1 (List.mem_append.mpr (Or.inl hv))
    rw [hkeep v hvu (by
      rw [inv.qgray v (hQold v (List.mem_append.mpr (Or.inl hv)))]; simp)]
    exact inv.q1d v (List.mem_cons_of_mem u hv)
  · -- q2d
    intro v hv
    rcases List.mem_append.mp hv with h | h
    · have hvu : v ≠ u := by
        intro hh
        subst hh
        exact hnodup2.1 (List.mem_append.mpr (Or.inr h))
      rw [hkeep v hvu (by
        rw [inv.qgray v (hQold v (List.mem_append.mpr (Or.inr h)))]; simp)]
      exact inv.q2d v h
    · rw [hnew v h]
  · -- qpass
    intro k hk v hv
    have hsplit : v ∈ Q1r ++ Q2 ∨ v ∈ (scanNeighbors limit u (g.adj u) vst).2.1 := by
      rcases List.mem_append.mp hv with h | h
      · exact Or.inl (List.mem_append.mpr (Or.inl h))
      · rcases List.mem_append.mp h with h2 | h2
        · exact Or.inl (List.mem_append.mpr (Or.inr h2))
        · exact Or.inr h2
    rcases hsplit with h | h
    · have hvu : v ≠ u := fun hh => hnodup2.1 (hh ▸ h)
      rw [hkeep v hvu (by rw [inv.qgray v (hQold v h)]; simp)]
      exact inv.qpass k hk v (hQold v h)
    · rw [hnew v h]
      by_cases hp : passCond limit ((vst u).d + 1) = true
      · left
        subst hk
        simp only [passCond, hud] at hp
        simpa using of_decide_eq_true hp
      · rw [scan_enq_empty limit u (g.adj u) vst hu
          (Bool.not_eq_true _ ▸ hp)] at h
        simp at h
  · -- distC
    intro v hv hnw
    by_cases hvu : v = u
    · subst hvu
      rw [hBu]
      have := inv.distC v hv hu
      exact this
    · rcases hcase v hvu with h | ⟨h, hw, hL⟩
      · rw [h]
        rw [h] at hnw
        exact inv.distC v hv hnw
      · rw [h]
        show IsDist g s v (dlo + 1)
        refine ⟨PathLen.step hdist_u.1 hL, ?_⟩
        intro m hm
        by_contra hcon
        have hmle : m ≤ dlo := by omega
        exact (inv.covered m hmle v hm) hw
  · -- blackExp
    intro x hx hb v hv
    by_cases hxu : x = u
    · by_cases hvw : (vst v).color = Color.WHITE
      · have hvu : v ≠ u := fun hh => hu (hh ▸ hvw)
        rw [hBx v hvu]
        have := scan_marks limit u (g.adj u) vst v hu (hxu ▸ hv) hvw
        rw [this]
        simp
      · exact hmono v hvw
    · rcases hcase x hxu with h | ⟨h, hw, _⟩
      · rw [h] at hb
        exact hmono v (inv.blackExp x hx hb v hv)
      · rw [h] at hb
        simp at hb
  · -- grayInQ
    intro v hv hg
    by_cases hvu : v = u
    · subst hvu
      rw [hBu] at hg
      simp at hg
    · rcases hcase v hvu with h | ⟨h, hw, hL⟩
      · rw [h] at hg
        rcases inv.grayInQ v hv hg with hmem | hcut
        · rw [List.cons_append] at hmem
          rcases List.mem_cons.mp hmem with hh | hh
          · exact absurd hh hvu
          · left
            rw [← List.append_assoc]
            exact List.mem_append.mpr (Or.inl hh)
        · right
          rw [h]
          exact hcut
      · by_cases hp : passCond limit ((vst u).d + 1) = true
        · left
          have := scan_enq_complete limit u (g.adj u) vst v hu hp hL hw
          rw [← List.append_assoc]
          exact List.mem_append.mpr (Or.inr this)
        · right
          cases limit with
          | none => simp [passCond] at hp
          | some k =>
            refine ⟨k, rfl, ?_⟩
            rw [h]
            simp only [passCond, hud] at hp
            have := of_decide_eq_false (Bool.not_eq_true _ ▸ hp)
            push_cast at this ⊢
            omega
  · -- whiteD
    intro v hv hw
    rcases hwhiteB v hw with ⟨heq, hw2⟩
    rw [heq]
    exact inv.whiteD v hv hw2
  · -- covered
    intro n hn v hp
    exact hmono v (inv.covered n hn v hp)
  · -- sNW
    exact hmono s inv.sNW
  · -- accNodup
    cases limit with
    | none =>
      rw [scan_acc_none u (g.adj u) vst, List.append_nil]
      exact inv.accNodup
    | some k =>
      rw [scan_acc_some k u (g.adj u) vst]
      refine List.Nodup.append inv.accNodup (scan_enq_nodup (some k) u (g.adj u) vst) ?_
      intro x hx1 hx2
      have hxk := inv.accKeys x hx1
      have := ((inv.accMem x hxk).mp hx1).1
      exact this (hnewW x hx2).1
  · -- accKeys
    intro v hv
    rcases List.mem_append.mp hv with h | h
    · exact inv.accKeys v h
    · cases limit with
      | none =>
        rw [scan_acc_none u (g.adj u) vst] at h
        simp at h
      | some k =>
        rw [scan_acc_some k u (g.adj u) vst] at h
        exact adj_subset_keys hC (hnewW v h).2
  · -- accMem
    intro v hv
    cases limit with
    | none =>
      rw [scan_acc_none u (g.adj u) vst, List.append_nil]
      rw [inv.accMem v hv]
      constructor
      · intro ⟨h1, h2, k, hk, _⟩
        cases hk
      · intro ⟨h1, h2, k, hk, _⟩
        cases hk
    | some k =>
      rw [scan_acc_some k u (g.adj u) vst]
      by_cases hvu : v = u
      · have hBv : setColor (scanNeighbors (some k) u (g.adj u) vst).1 u Color.BLACK v
            = { vst v with color := Color.BLACK } := by rw [hvu]; exact hBu
        have hvnw : (vst v).color ≠ Color.WHITE := by rw [hvu]; exact hu
        have hvenq : v ∉ (scanNeighbors (some k) u (g.adj u) vst).2.1 :=
          fun hh => hvnw (hnewW v hh).1
        constructor
        · intro hmem
          rcases List.mem_append.mp hmem with h | h
          · have hold := (inv.accMem v hv).mp h
            rw [hBv]
            refine ⟨by simp, hold.2.1, ?_⟩
            rcases hold.2.2 with ⟨k2, hk2, hle⟩
            cases hk2
            exact ⟨_, rfl, hle⟩
          · exact absurd h hvenq
        · intro ⟨h1, h2, k2, hk2, hle⟩
          cases hk2
          refine List.mem_append.mpr
            (Or.inl ((inv.accMem v hv).mpr ⟨hvnw, h2, _, rfl, ?_⟩))
          rw [hBv] at hle
          exact hle
      · rcases hcase v hvu with h | ⟨h, hw, hL⟩
        · have hvenq : v ∉ (scanNeighbors (some k) u (g.adj u) vst).2.1 := by
            intro hh
            have h2 := hnew v hh
            rw [h] at h2
            have h3 := (hnewW v hh).1
            rw [h2] at h3
            simp at h3
          constructor
          · intro hmem
            rcases List.mem_append.mp hmem with hmem2 | hmem2
            · have := (inv.accMem v hv).mp hmem2
              rw [h]
              exact this
            · exact absurd hmem2 hvenq
          · intro hrhs
            rw [h] at hrhs
            exact List.mem_append.mpr (Or.inl ((inv.accMem v hv).mpr hrhs))
        · have hvacc : v ∉ acc := by
            intro hh
            exact ((inv.accMem v hv).mp hh).1 hw
          by_cases hp : passCond (some k) ((vst u).d + 1) = true
          · have hvenq := scan_enq_complete (some k) u (g.adj u) vst v hu hp hL hw
            constructor
            · intro _
              rw [h]
              refine ⟨by simp, ?_, k, rfl, ?_⟩
              · intro hvs
                exact (hvs ▸ inv.sNW) hw
              · simp only [passCond, hud] at hp
                simpa using of_decide_eq_true hp
            · intro _
              exact List.mem_append.mpr (Or.inr hvenq)
          · have hempty := scan_enq_empty (some k) u (g.adj u) vst hu
              (Bool.not_eq_true _ ▸ hp)
            constructor
            · intro hmem
              rcases List.mem_append.mp hmem with hmem2 | hmem2
              · exact absurd hmem2 hvacc
              · rw [hempty] at hmem2
                simp at hmem2
            · intro ⟨h1, h2, k2, hk2, hle⟩
              cases hk2
              rw [h] at hle
              simp only [passCond, hud] at hp
              have := of_decide_eq_false (Bool.not_eq_true _ ▸ hp)
              push_cast at this hle
              omega
  · -- accD
    intro v hv
    rcases List.mem_append.mp hv with h | h
    · have hvk := inv.accKeys v h
      have hnw := ((inv.accMem v hvk).mp h).1
      by_cases hvu : v = u
      · subst hvu
        rw [hBu]
        have := inv.accD v h
        exact this
      · rw [hkeep v hvu hnw]
        exact inv.accD v h
    · cases limit with
      | none =>
        rw [scan_acc_none u (g.adj u) vst] at h
        simp at h
      | some k =>
        rw [scan_acc_some k u (g.adj u) vst] at h
        rw [hnew v h]
  · -- accSorted
    rw [List.map_append]
    refine List.pairwise_append.mpr ?_
    have hmapacc : acc.map (fun v =>
        (setColor (scanNeighbors limit u (g.adj u) vst).1 u Color.BLACK v).d)
        = acc.map (fun v => (vst v).d) := by
      apply List.map_congr_left
      intro x hx
      have hxk := inv.accKeys x hx
      have hnw := ((inv.accMem x hxk).mp hx).1
      by_cases hxu : x = u
      · subst hxu
        rw [hBu]
      · rw [hkeep x hxu hnw]
    refine ⟨?_, ?_, ?_⟩
    · rw [hmapacc]
      exact inv.accSorted
    · cases limit with
      | none =>
        rw [scan_acc_none u (g.adj u) vst]
        simp
      | some k =>
        rw [scan_acc_some k u (g.adj u) vst]
        rw [List.pairwise_map]
        apply pairwise_of_all
        intro a ha b hb
        rw [hnew a ha, hnew b hb]
    · intro x hx y hy
      rcases List.mem_map.mp hx with ⟨a, ha, rfl⟩
      rcases List.mem_map.mp hy with ⟨b, hb, rfl⟩
      cases limit with
      | none =>
        rw [scan_acc_none u (g.adj u) vst] at hb
        simp at hb
      | some k =>
        rw [scan_acc_some k u (g.adj u) vst] at hb
        rw [hnew b hb]
        have hak := inv.accKeys a ha
        have hanw := ((inv.accMem a hak).mp ha).1
        have had := inv.accD a ha
        by_cases hau : a = u
        · subst hau
          rw [hBu]
          exact had
        · rw [hkeep a hau hanw]
          exact had

end AlgoLab

namespace AlgoLab

variable {α : Type} [DecidableEq α]

/-- Running the loop to completion from any invariant state with sufficient
fuel yields an invariant state with an empty queue. -/
theorem bfsLoop_inv (g : DiGraph α) (s : α) (limit : Option Int)
    (hC : Closed g) (hs : s ∈ g.keys) :
    ∀ (fuel : Nat) (Q1 Q2 : List α) (dlo : Nat) (vst : VMap α) (acc : List α),
      BfsInv g s limit Q1 Q2 dlo vst acc →
      (Q1 ++ Q2).length + whiteCountL (allNames g).dedup vst ≤ fuel →
      ∃ dlo2, BfsInv g s limit [] [] dlo2
        (bfsLoop g limit fuel (Q1 ++ Q2) vst acc).1
        (bfsLoop g limit fuel (Q1 ++ Q2) vst acc).2 := by
  intro fuel
  induction fuel with
  | zero =>
    intro Q1 Q2 dlo vst acc inv hm
    have h0 : Q1 ++ Q2 = [] := List.length_eq_zero.mp (by omega)
    rcases List.append_eq_nil.mp h0 with ⟨h1, h2⟩
    subst h1
    subst h2
    exact ⟨dlo, inv⟩
  | succ fuel ih =>
    intro Q1 Q2 dlo vst acc inv hm
    have main : ∀ (u : α) (Q1r Q2b : List α) (dlo2 : Nat) (vst2 : VMap α)
        (acc2 : List α),
        BfsInv g s limit (u :: Q1r) Q2b dlo2 vst2 acc2 →
        ((u :: Q1r) ++ Q2b).length + whiteCountL (allNames g).dedup vst2 ≤ fuel + 1 →
        ∃ dlo3, BfsInv g s limit [] [] dlo3
          (bfsLoop g limit (fuel + 1) ((u :: Q1r) ++ Q2b) vst2 acc2).1
          (bfsLoop g limit (fuel + 1) ((u :: Q1r) ++ Q2b) vst2 acc2).2 := by
      intro u Q1r Q2b dlo2 vst2 acc2 inv2 hm2
      have hstep := bfsInv_step g s limit hC hs inv2
      have hmemu : u ∈ (u :: Q1r) ++ Q2b := by
        rw [List.cons_append]
        exact List.mem_cons_self u (Q1r ++ Q2b)
      have hugray : (vst2 u).color = Color.GRAY := inv2.qgray u hmemu
      have hu : (vst2 u).color ≠ Color.WHITE := by rw [hugray]; simp
      have hwcB : whiteCountL (allNames g).dedup
          (setColor (scanNeighbors limit u (g.adj u) vst2).1 u Color.BLACK)
          = whiteCountL (allNames g).dedup (scanNeighbors limit u (g.adj u) vst2).1 := by
        apply whiteCountL_congr
        intro x _
        by_cases hxu : x = u
        · subst hxu
          have h1 : (setColor (scanNeighbors limit x (g.adj x) vst2).1 x Color.BLACK x).color
              = Color.BLACK := by
            simp [setColor]
          have h2 := scan_fst_frame limit x (g.adj x) vst2 x hu
          rw [h1, h2, hugray]
          simp
        · have : setColor (scanNeighbors limit u (g.adj u) vst2).1 u Color.BLACK x
              = (scanNeighbors limit u (g.adj u) vst2).1 x := by
            simp [setColor, hxu]
          rw [this]
      have hwcScan := scan_whiteCount limit u (List.nodup_dedup (allNames g))
        (g.adj u) vst2
        (fun v hv => List.mem_dedup.mpr (adj_subset_allNames hv))
      have hmnew : (Q1r ++ (Q2b ++ (scanNeighbors limit u (g.adj u) vst2).2.1)).length
          + whiteCountL (allNames g).dedup
            (setColor (scanNeighbors limit u (g.adj u) vst2).1 u Color.BLACK)
          ≤ fuel := by
        rw [hwcB]
        simp only [List.length_append, List.cons_append, List.length_cons] at hm2 ⊢
        omega
      have hres := ih Q1r (Q2b ++ (scanNeighbors limit u (g.adj u) vst2).2.1) dlo2
        (setColor (scanNeighbors limit u (g.adj u) vst2).1 u Color.BLACK)
        (acc2 ++ (scanNeighbors limit u (g.adj u) vst2).2.2) hstep hmnew
      have hunfold : bfsLoop g limit (fuel + 1) ((u :: Q1r) ++ Q2b) vst2 acc2
          = bfsLoop g limit fuel
            (Q1r ++ (Q2b ++ (scanNeighbors limit u (g.adj u) vst2).2.1))
            (setColor (scanNeighbors limit u (g.adj u) vst2).1 u Color.BLACK)
            (acc2 ++ (scanNeighbors limit u (g.adj u) vst2).2.2) := by
        rw [List.cons_append]
        show bfsLoop g limit fuel
          ((Q1r ++ Q2b) ++ (scanNeighbors limit u (g.adj u) vst2).2.1) _ _ = _
        rw [List.append_assoc]
      rw [hunfold]
      exact hres
    cases hQ1 : Q1 with
    | cons u Q1r =>
      subst hQ1
      exact main u Q1r Q2 dlo vst acc inv hm
    | nil =>
      subst hQ1
      cases hQ2 : Q2 with
      | nil =>
        subst hQ2
        exact ⟨dlo, inv⟩
      | cons u Qr =>
        have hne : Q2 ≠ [] := by rw [hQ2]; simp
        have inv2 := bfsInv_shift g s limit hC hs inv hne
        subst hQ2
        have := main u Qr [] (dlo + 1) vst acc (by simpa using inv2)
          (by simpa using hm)
        simpa using this

/-- In a terminal plain-BFS state every reachable vertex is discovered. -/
theorem bfsInvEmpty_reach_none {g : DiGraph α} {s : α} {dlo : Nat}
    {vstf : VMap α} {accf : List α}
    (hC : Closed g) (hs : s ∈ g.keys)
    (inv : BfsInv g s none [] [] dlo vstf accf) :
    ∀ (n : Nat) (v : α), PathLen g s v n → (vstf v).color ≠ Color.WHITE := by
  intro n
  induction n with
  | zero =>
    intro v hp
    obtain rfl := pathLen_zero hp
    exact inv.sNW
  | succ m ih =>
    intro v hp
    rcases pathLen_succ hp with ⟨p, hp2, hedge⟩
    have hpnw := ih p hp2
    have hpk := pathLen_mem_keys hC hs hp2
    cases hcol : (vstf p).color with
    | WHITE => exact absurd hcol hpnw
    | BLACK => exact inv.blackExp p hpk hcol v hedge
    | GRAY =>
      rcases inv.grayInQ p hpk hcol with hmem | ⟨k, hk, _⟩
      · simp at hmem
      · cases hk

/-- In a terminal depth-limited state every vertex within distance
`max_depth + 1` is discovered. -/
theorem bfsInvEmpty_reach_some {g : DiGraph α} {s : α} {k : Int} {dlo : Nat}
    {vstf : VMap α} {accf : List α}
    (hC : Closed g) (hs : s ∈ g.keys)
    (inv : BfsInv g s (some k) [] [] dlo vstf accf) :
    ∀ (n : Nat), (n : Int) ≤ k + 1 → ∀ v, PathLen g s v n →
      (vstf v).color ≠ Color.WHITE := by
  intro n
  induction n with
  | zero =>
    intro _ v hp
    obtain rfl := pathLen_zero hp
    exact inv.sNW
  | succ m ih =>
    intro hn v hp
    rcases pathLen_succ hp with ⟨p, hp2, hedge⟩
    have hpnw : (vstf p).color ≠ Color.WHITE := by
      refine ih ?_ p hp2
      push_cast at hn ⊢
      omega
    have hpk := pathLen_mem_keys hC hs hp2
    have hdp := inv.distC p hpk hpnw
    have hdple : (vstf p).d ≤ m := hdp.2 m hp2
    cases hcol : (vstf p).color with
    | WHITE => exact absurd hcol hpnw
    | BLACK => exact inv.blackExp p hpk hcol v hedge
    | GRAY =>
      rcases inv.grayInQ p hpk hcol with hmem | ⟨k2, hk2, hlt⟩
      · simp at hmem
      · cases hk2
        push_cast at hn hlt
        omega

end AlgoLab

namespace AlgoLab

variable {α : Type} [DecidableEq α]

theorem initial_measure (g : DiGraph α) (vst : VMap α) (s : α) :
    ([s] ++ ([] : List α)).length
        + whiteCountL (allNames g).dedup (initStates g vst s) ≤ bfsFuel g := by
  have h1 : ((allNames g).dedup.filter
      (fun x => decide ((initStates g vst s x).color = Color.WHITE))).length
      ≤ (allNames g).dedup.length := List.length_filter_le _ _
  have h2 : (allNames g).dedup.length ≤ (allNames g).length :=
    (List.dedup_sublist _).length_le
  unfold bfsFuel whiteCountL
  simp only [List.append_nil, List.length_singleton]
  omega

/-- C4: after `bfs(G, s)`, the source has distance 0, every vertex
reachable from `s` carries its shortest-path distance (a finite value,
strictly below the `sys.maxsize` sentinel), and every unreachable graph
vertex retains the sentinel. -/
theorem bfs_distances_correct (g : DiGraph α) (vst : VMap α) (s : α)
    (hC : Closed g) (hs : s ∈ g.keys)
    (hsize : g.keys.dedup.length ≤ sysMaxsize) :
    ((bfs g vst s).2 s).d = 0
      ∧ (∀ v, Reachable g s v →
          ∃ n, IsDist g s v n ∧ ((bfs g vst s).2 v).d = n ∧ n < sysMaxsize)
      ∧ (∀ v ∈ g.keys, ¬ Reachable g s v → ((bfs g vst s).2 v).d = sysMaxsize) := by
  obtain ⟨dlo2, hfin⟩ := bfsLoop_inv g s none hC hs (bfsFuel g) [s] [] 0
    (initStates g vst s) [] (bfsInv_init g s none hC hs vst)
    (initial_measure g vst s)
  simp only [List.append_nil] at hfin
  have hbeq : (bfs g vst s).2
      = (bfsLoop g none (bfsFuel g) [s] (initStates g vst s) []).1 := rfl
  rw [hbeq]
  refine ⟨?_, ?_, ?_⟩
  · have h := hfin.distC s hs hfin.sNW
    exact isDist_unique h (isDist_source g s)
  · rintro v ⟨n, hn⟩
    have hnw := bfsInvEmpty_reach_none hC hs hfin n v hn
    have hvk := pathLen_mem_keys hC hs hn
    have hd := hfin.distC v hvk hnw
    refine ⟨_, hd, rfl, ?_⟩
    have := isDist_lt_card hC hs hd
    omega
  · intro v hvk hunreach
    by_cases hw : ((bfsLoop g none (bfsFuel g) [s] (initStates g vst s) []).1 v).color
        = Color.WHITE
    · rw [hfin.whiteD v hvk hw]
      rfl
    · exact absurd ⟨_, (hfin.distC v hvk hw).1⟩ hunreach

/-- Witness for C4: the chain graph 0→1→2→3 searched from 3 (so 0, 1, 2
are unreachable), instantiating every hypothesis concretely. -/
theorem bfs_distances_correct_witness :
    Closed wG ∧ (3 : Nat) ∈ wG.keys ∧ wG.keys.dedup.length ≤ sysMaxsize
      ∧ (((bfs wG wVst 3).2 3).d = 0
        ∧ (∀ v, Reachable wG 3 v →
            ∃ n, IsDist wG 3 v n ∧ ((bfs wG wVst 3).2 v).d = n ∧ n < sysMaxsize)
        ∧ (∀ v ∈ wG.keys, ¬ Reachable wG 3 v →
            ((bfs wG wVst 3).2 v).d = sysMaxsize)) :=
  ⟨by decide, by decide, by decide,
   bfs_distances_correct wG wVst 3 (by decide) (by decide) (by decide)⟩

/-- C1: `recommend_friends_for_user(G, s, k)` returns exactly the vertices
of `G` at BFS distance `1 ≤ distance ≤ k` from `s` (the source itself is
never included), each exactly once, in BFS discovery order (their recorded
distances are nondecreasing along the returned list). -/
theorem recommend_friends_exact (g : DiGraph α) (vst : VMap α) (s : α)
    (k : Int) (hC : Closed g) (hs : s ∈ g.keys) :
    (recommend_friends_for_user g vst s k).2.2.Nodup
      ∧ s ∉ (recommend_friends_for_user g vst s k).2.2
      ∧ (∀ v ∈ (recommend_friends_for_user g vst s k).2.2, v ∈ g.keys)
      ∧ (∀ v, v ∈ (recommend_friends_for_user g vst s k).2.2
          ↔ ∃ n, IsDist g s v n ∧ 1 ≤ n ∧ (n : Int) ≤ k)
      ∧ ((recommend_friends_for_user g vst s k).2.2.map
          (fun v => ((recommend_friends_for_user g vst s k).2.1 v).d)).Sorted
          (· ≤ ·) := by
  obtain ⟨dlo2, hfin⟩ := bfsLoop_inv g s (some k) hC hs (bfsFuel g) [s] [] 0
    (initStates g vst s) [] (bfsInv_init g s (some k) hC hs vst)
    (initial_measure g vst s)
  simp only [List.append_nil] at hfin
  have hveq : (recommend_friends_for_user g vst s k).2.1
      = (bfsLoop g (some k) (bfsFuel g) [s] (initStates g vst s) []).1 := rfl
  have haeq : (recommend_friends_for_user g vst s k).2.2
      = (bfsLoop g (some k) (bfsFuel g) [s] (initStates g vst s) []).2 := rfl
  rw [hveq, haeq]
  have hmem : ∀ v, v ∈ (bfsLoop g (some k) (bfsFuel g) [s] (initStates g vst s) []).2
      ↔ ∃ n, IsDist g s v n ∧ 1 ≤ n ∧ (n : Int) ≤ k := by
    intro v
    constructor
    · intro hv
      have hvk := hfin.accKeys v hv
      rcases (hfin.accMem v hvk).mp hv with ⟨hnw, hvs, k2, hk2, hle⟩
      cases hk2
      have hd := hfin.distC v hvk hnw
      refine ⟨_, hd, ?_, hle⟩
      by_contra hcon
      have h0 : ((bfsLoop g (some k) (bfsFuel g) [s] (initStates g vst s) []).1 v).d
          = 0 := by omega
      rw [h0] at hd
      exact hvs (pathLen_zero hd.1)
    · rintro ⟨n, hn, h1, hk⟩
      have hnw : ((bfsLoop g (some k) (bfsFuel g) [s] (initStates g vst s) []).1 v).color
          ≠ Color.WHITE :=
        bfsInvEmpty_reach_some hC hs hfin n (by omega) v hn.1
      have hvk := pathLen_mem_keys hC hs hn.1
      have hd := hfin.distC v hvk hnw
      have hdn : ((bfsLoop g (some k) (bfsFuel g) [s] (initStates g vst s) []).1 v).d
          = n := isDist_unique hd hn
      refine (hfin.accMem v hvk).mpr ⟨hnw, ?_, k, rfl, by rw [hdn]; exact hk⟩
      intro hvs
      subst hvs
      have := isDist_unique hn (isDist_source g v)
      omega
  refine ⟨hfin.accNodup, ?_, hfin.accKeys, hmem, hfin.accSorted⟩
  intro hsmem
  rcases (hmem s).mp hsmem with ⟨n, hn, h1, _⟩
  have := isDist_unique hn (isDist_source g s)
  omega

/-- Witness for C1: the chain graph 0→1→2→3 from source 0 with
`max_depth = 2`. -/
theorem recommend_friends_exact_witness :
    Closed wG ∧ (0 : Nat) ∈ wG.keys
      ∧ ((recommend_friends_for_user wG wVst 0 2).2.2.Nodup
        ∧ (0 : Nat) ∉ (recommend_friends_for_user wG wVst 0 2).2.2
        ∧ (∀ v ∈ (recommend_friends_for_user wG wVst 0 2).2.2, v ∈ wG.keys)
        ∧ (∀ v, v ∈ (recommend_friends_for_user wG wVst 0 2).2.2
            ↔ ∃ n, IsDist wG 0 v n ∧ 1 ≤ n ∧ (n : Int) ≤ 2)
        ∧ ((recommend_friends_for_user wG wVst 0 2).2.2.map
            (fun v => ((recommend_friends_for_user wG wVst 0 2).2.1 v).d)).Sorted
            (· ≤ ·)) :=
  ⟨by decide, by decide,
   recommend_friends_exact wG wVst 0 2 (by decide) (by decide)⟩

end AlgoLab
